import Mathlib

/-!
Verification of the sinaps byte-signature scanner (single_include/sinaps.hpp).

Shallow embedding conventions:
* `uint8_t` values are `Nat` with explicit `% 256` where C++ would truncate;
  `size_t` arithmetic is `Nat` with explicit wraparound modulo `2 ^ 64`
  (`usub64`) where the source can underflow.
* buffers are `List Nat`; an out-of-bounds buffer read (undefined behaviour
  in C++) is modeled as reading 0 via `List.getD`.
* consteval failures (out-of-range `FixedString`/array accesses) are `none`
  of an `Option` result.
* the scanning loops advance an index by `step` each iteration; they are
  embedded with an explicit iteration budget (`fuel`) chosen as
  `bound / step + 1`, which is always enough when `step ≥ 1` (for
  `step = 0` the C++ loop does not terminate; no claim concerns that case).
-/

namespace Sinaps

/-- Models `token_t::type_t`: byte (literal), wildcard, cursor (anchor), masked. -/
inductive TokType : Type
  | byte
  | wildcard
  | cursor
  | masked
  deriving DecidableEq, Repr

/-- Models `token_t`: a tagged token with byte value and mask payload. -/
structure Token where
  type : TokType
  byte : Nat := 0
  mask : Nat := 0
  deriving DecidableEq, Repr

/-- Models `token_t(uint8_t byte, uint8_t mask)`: starts masked, a mask of 0 degrades
to wildcard and a mask of 0xFF degrades to byte (fields are kept). -/
def mkMasked (b m : Nat) : Token :=
  if m = 0 then { type := TokType.wildcard, byte := b, mask := m }
  else if m = 255 then { type := TokType.byte, byte := b, mask := m }
  else { type := TokType.masked, byte := b, mask := m }

/-- Models `token_t(uint8_t byte)`: a literal byte token (mask field defaults to 0). -/
def mkByte (b : Nat) : Token := { type := TokType.byte, byte := b }

/-- Models `token_t(type_t type)`: a payload-free token of the given kind. -/
def mkTok (t : TokType) : Token := { type := t }

/-- Models `token_t()`: the default token is a wildcard. -/
def mkWild : Token := { type := TokType.wildcard }

/-! ### Mask primitives (`sinaps::mask`)

Each primitive expands to its token list (the `value` tuple in the source).
`& 0xFF` and the implicit `uint8_t` conversions are written `% 256`. -/

/-- Models `mask::byte<N>` -/
def maskByte (n : Nat) : List Token := [mkByte n]

/-- Models `mask::word<N>`: `token_t(N & 0xFF), token_t(N >> 8)`. -/
def maskWord (n : Nat) : List Token :=
  [mkByte (n % 256), mkByte ((n >>> 8) % 256)]

/-- Models `mask::dword<N>` -/
def maskDword (n : Nat) : List Token :=
  [mkByte (n % 256), mkByte ((n >>> 8) % 256), mkByte ((n >>> 16) % 256),
    mkByte ((n >>> 24) % 256)]

/-- Models `mask::qword<N>` -/
def maskQword (n : Nat) : List Token :=
  [mkByte (n % 256), mkByte ((n >>> 8) % 256), mkByte ((n >>> 16) % 256),
    mkByte ((n >>> 24) % 256), mkByte ((n >>> 32) % 256), mkByte ((n >>> 40) % 256),
    mkByte ((n >>> 48) % 256), mkByte ((n >>> 56) % 256)]

/-- Models `mask::any<N>`: N wildcard tokens. -/
def maskAny (n : Nat) : List Token := List.replicate n mkWild

/-- Models `mask::cursor`: one zero-width cursor token. -/
def maskCursor : List Token := [mkTok TokType.cursor]

/-- Models `mask::masked<N, M>` -/
def maskMasked (n m : Nat) : List Token := [mkMasked n m]

/-- Models `mask::string<S>`: one literal token per character. -/
def maskString (s : List Nat) : List Token := s.map mkByte

/-! ### Compiled pattern (`sinaps::pattern`)

A pattern is given by its `raw_value` token list (the concatenation of its
primitives' expansions). All other fields are derived. -/

/-- Models `pattern::value`: the raw tokens with the zero-sized (cursor) tokens
removed, in order. -/
def patternValue (raw : List Token) : List Token :=
  raw.filter (fun t => t.type ≠ TokType.cursor)

/-- Models `pattern::size`: the number of byte positions the pattern spans
(each non-cursor primitive token contributes 1, cursor contributes 0). -/
def patternSize (raw : List Token) : Nat := (patternValue raw).length

/-- the fold computing `pattern::cursor_pos`: `pos` is overwritten with the
raw index of each cursor token in turn (so the last cursor wins), 0 if none. -/
def cursorPosLoop : List Token → Nat → Nat → Nat
  | [], _, pos => pos
  | t :: ts, i, pos =>
      cursorPosLoop ts (i + 1) (if t.type = TokType.cursor then i else pos)

/-- Models `pattern::cursor_pos` -/
def cursorPosOf (raw : List Token) : Nat := cursorPosLoop raw 0 0

/-- Models `pattern::types` (cursor excluded) -/
def patternTypes (raw : List Token) : List TokType := (patternValue raw).map Token.type

/-- Models `pattern::bytes` (cursor excluded) -/
def patternBytes (raw : List Token) : List Nat := (patternValue raw).map Token.byte

/-- Models `pattern::masks` (cursor excluded) -/
def patternMasks (raw : List Token) : List Nat := (patternValue raw).map Token.mask

/-- the fold computing `pattern::groups`: scanning `types` left to right with
state (current index `i`, inside-a-run flag `inG`, run start `b`, run length
`c`, emitted groups `gs`); a literal opens or extends a run, a non-literal
closes it; a still-open run is flushed at the end. -/
def groupsLoop : List TokType → Nat → Bool → Nat → Nat → List (Nat × Nat) →
    List (Nat × Nat)
  | [], _, inG, b, c, gs => if inG then gs ++ [(b, c)] else gs
  | ty :: rest, i, inG, b, c, gs =>
      if ty = TokType.byte then
        if inG then groupsLoop rest (i + 1) true b (c + 1) gs
        else groupsLoop rest (i + 1) true i 1 gs
      else
        if inG then groupsLoop rest (i + 1) false b c (gs ++ [(b, c)])
        else groupsLoop rest (i + 1) false b c gs

/-- Models `pattern::groups`: maximal runs of consecutive literal tokens, each as
(offset, count). -/
def groupsOf (types : List TokType) : List (Nat × Nat) :=
  groupsLoop types 0 false 0 0 []

/-- groups of a pattern given by its raw token list -/
def patternGroups (raw : List Token) : List (Nat × Nat) := groupsOf (patternTypes raw)

/-! ### The matcher (`sinaps::find`) -/

/-- Models `sinaps::not_found` -/
def notFound : Int := -1

/-- Models `size_t` subtraction `a - b` with 64-bit wraparound. -/
def usub64 (a b : Nat) : Nat :=
  (a + 18446744073709551616 - b) % 18446744073709551616

/-- the group pass of `find<Pattern>` at candidate position `i`: for every
group, every byte of the block must equal the pattern byte
(`data[i + j + group.offset] == pat::bytes[j + group.offset]`). -/
def matchGroupsAt (data : List Nat) (bytes : List Nat) (groups : List (Nat × Nat))
    (i : Nat) : Bool :=
  groups.all fun g =>
    (List.range g.2).all fun j => data.getD (i + j + g.1) 0 == bytes.getD (j + g.1) 0

/-- the masked pass of `find<Pattern>` at candidate position `i`: every
masked token position must satisfy `(data[i + j] & masks[j]) == bytes[j]`. -/
def matchMaskedAt (data : List Nat) (types : List TokType) (bytes masks : List Nat)
    (sz i : Nat) : Bool :=
  (List.range sz).all fun j =>
    if types.getD j TokType.wildcard = TokType.masked then
      (data.getD (i + j) 0 &&& masks.getD j 0) == bytes.getD j 0
    else true

/-- one candidate check of `find<Pattern>`: the group pass, then (only if it
succeeded) the masked pass. -/
def foundAt (data : List Nat) (raw : List Token) (i : Nat) : Bool :=
  matchGroupsAt data (patternBytes raw) (patternGroups raw) i &&
    matchMaskedAt data (patternTypes raw) (patternBytes raw) (patternMasks raw)
      (patternSize raw) i

/-- the scan loop shared by the find entry points: try candidates
`i, i + step, ...` while `i < ubound`, returning `ret i` at the first hit and
-1 once past the bound. `fuel` bounds the number of iterations; every use
below passes enough fuel that exhaustion (which also returns -1) is
unreachable when `step ≥ 1`. -/
def scanLoop (ubound : Nat) (hit : Nat → Bool) (ret : Nat → Int) (step : Nat) :
    Nat → Nat → Int
  | 0, _ => -1
  | fuel + 1, i =>
      if i < ubound then
        if hit i then ret i else scanLoop ubound hit ret step fuel (i + step)
      else -1

/-- Models `sinaps::find<Pattern>(data, size, step_size)`, the pattern given by its
raw token list. The loop condition is `i <= size - pat::size` in `size_t`
arithmetic, i.e. `i < usub64 size patSize + 1`; a match returns
`i + pat::cursor_pos`. -/
def find (data : List Nat) (raw : List Token) (step : Nat) : Int :=
  let bound := usub64 data.length (patternSize raw)
  scanLoop (bound + 1) (foundAt data raw)
    (fun i => (i : Int) + (cursorPosOf raw : Int)) step (bound / step + 1) 0

/-- the per-window check of the token-array
`sinaps::find(data, size, pattern, pattern_size, step_size)`: literal tokens
compare equal, masked tokens compare under mask, wildcard and cursor tokens
constrain nothing (each still occupies one window position). -/
def tokenMatchAt (data : List Nat) (toks : List Token) (i : Nat) : Bool :=
  (List.range toks.length).all fun j =>
    match (toks.getD j mkWild).type with
    | TokType.byte => data.getD (i + j) 0 == (toks.getD j mkWild).byte
    | TokType.masked =>
        (data.getD (i + j) 0 &&& (toks.getD j mkWild).mask) == (toks.getD j mkWild).byte
    | _ => true

/-- the token-array `sinaps::find(data, size, pattern, pattern_size,
step_size)`: the loop condition is the strict `i < size - pattern_size`
(`size_t` arithmetic), and a match returns `i` itself. -/
def findTokens (data : List Nat) (toks : List Token) (step : Nat) : Int :=
  let bound := usub64 data.length toks.length
  scanLoop bound (tokenMatchAt data toks) (fun i => (i : Int)) step
    (bound / step + 1) 0

/-! ### The string tokenizer (`sinaps::impl`) -/

/-- Models `utils::is_hex` -/
def isHexChar (c : Char) : Bool :=
  ('0' ≤ c && c ≤ '9') || ('A' ≤ c && c ≤ 'F') || ('a' ≤ c && c ≤ 'f')

/-- Models `utils::from_hex`, including its `uint8_t` wraparound on non-hex input
(the fall-through branch computes `c - 'a' + 10` as `uint8_t`, i.e.
`(c + 169) % 256`). -/
def fromHex (c : Char) : Nat :=
  if '0' ≤ c && c ≤ '9' then c.toNat - '0'.toNat
  else if 'A' ≤ c && c ≤ 'F' then c.toNat - 'A'.toNat + 10
  else (c.toNat + 169) % 256

/-- the digit table of `utils::hex_to_string` -/
def hexDigits : List Char :=
  ['0', '1', '2', '3', '4', '5', '6', '7', '8', '9', 'A', 'B', 'C', 'D', 'E', 'F']

/-- one digit of `utils::hex_to_string` -/
def hexChar (n : Nat) : Char := hexDigits.getD n '0'

/-- Models `utils::hex_to_string`: `hex[byte >> 4], hex[byte & 0xF]`. -/
def hexPair (b : Nat) : List Char := [hexChar (b >>> 4), hexChar (b &&& 15)]

/-- Models `from_hex(hi) << 4 | from_hex(lo)` stored into a `uint8_t`. -/
def hexByte (hi lo : Char) : Nat := ((fromHex hi) <<< 4 ||| fromHex lo) % 256

/-- Models `impl::sizeOfPatternString`, as structural recursion on the character
suffix at the loop index `i`. The suffix includes the terminating NUL, so the
loop condition `i < S.size()` is "at least two characters remain"; reading
`S[k]` past the NUL throws at constant evaluation time, modeled as `none`.
Branch by branch: a space is skipped; otherwise the token counter increments,
`i` advances past a leading hex digit, a `'&'` lookahead (guarded by
`i + 1 < S.size()`) advances `i` by 3 more, and a final unguarded read of
`S[i]` advances `i` once more unless it sees `'?'` or `'^'`. -/
def sizeLoop : List Char → Option Nat
  | [] => some 0
  | [_] => some 0
  | c1 :: c2 :: rest =>
    if c1 = ' ' then sizeLoop (c2 :: rest)
    else if isHexChar c1 then
      match rest with
      | [] => some 1      -- past the lookahead: both final branches exit the loop
      | [_] => some 1     -- likewise: the remaining advances step past the end
      | c3 :: c4 :: rest2 =>
        if c3 = '&' then
          match rest2 with
          | [] => none    -- the unguarded `S[i]` read is out of range: throw
          | d :: rest3 =>
            if d = '?' || d = '^' then (sizeLoop rest3).map (· + 1)
            else
              match rest3 with
              | [] => (sizeLoop ([] : List Char)).map (· + 1)
              | _ :: rest4 => (sizeLoop rest4).map (· + 1)
        else
          if c2 = '?' || c2 = '^' then (sizeLoop (c3 :: c4 :: rest2)).map (· + 1)
          else (sizeLoop (c4 :: rest2)).map (· + 1)
    else
      match rest with
      | [] =>
        if c1 = '?' || c1 = '^' then (sizeLoop [c2]).map (· + 1)
        else (sizeLoop ([] : List Char)).map (· + 1)
      | c3 :: rest2 =>
        if c2 = '&' then
          match rest2 with
          | [] => none    -- the unguarded `S[i]` read is out of range: throw
          | d :: rest3 =>
            if d = '?' || d = '^' then (sizeLoop rest3).map (· + 1)
            else
              match rest3 with
              | [] => (sizeLoop ([] : List Char)).map (· + 1)
              | _ :: rest4 => (sizeLoop rest4).map (· + 1)
        else
          if c1 = '?' || c1 = '^' then (sizeLoop (c2 :: c3 :: rest2)).map (· + 1)
          else (sizeLoop (c3 :: rest2)).map (· + 1)

/-- the NUL terminator of the `FixedString` holding the pattern string -/
def nulChar : Char := Char.ofNat 0

/-- Models `impl::sizeOfPatternString<S>` on the string's characters. -/
def sizeOfPatternString (s : List Char) : Option Nat := sizeLoop (s ++ [nulChar])

/-- the loop of `impl::tokenizePatternString`, as structural recursion on the
character suffix (NUL included, loop condition `i < S.size()` as in
`sizeLoop`). Each `tokens[index++] = t` write is the out-of-bounds check
`count < n` (constant evaluation fails, `none`, at `index >= N`) followed by
pushing the token on the reversed accumulator. A space is skipped; `'?'` and
`'^'` write a wildcard / cursor token; anything else parses two hex digits
into a literal byte token and, if a guarded lookahead sees `'&'`, reads two
more mask digits (the second unguarded: `none` past the end) and overwrites
the just-written token (`tokens[index - 1]`) with the masked token, modeled
by pushing the masked token in its place. -/
def tokLoop (n : Nat) : List Char → Nat → List Token → Option (Nat × List Token)
  | [], count, acc => some (count, acc)
  | [_], count, acc => some (count, acc)
  | c1 :: c2 :: rest, count, acc =>
    if c1 = ' ' then tokLoop n (c2 :: rest) count acc
    else if c1 = '?' then
      if count < n then tokLoop n (c2 :: rest) (count + 1) (mkWild :: acc)
      else none
    else if c1 = '^' then
      if count < n then
        tokLoop n (c2 :: rest) (count + 1) (mkTok TokType.cursor :: acc)
      else none
    else
      if count < n then
        match rest with
        | c3 :: c4 :: rest2 =>
          if c3 = '&' then
            match rest2 with
            | [] => none    -- unguarded mask-digit read `S[i + 3]` out of range
            | d :: rest3 =>
                tokLoop n rest3 (count + 1)
                  (mkMasked (hexByte c1 c2) (hexByte c4 d) :: acc)
          else
            tokLoop n (c3 :: c4 :: rest2) (count + 1)
              (mkByte (hexByte c1 c2) :: acc)
        | [] => some (count + 1, mkByte (hexByte c1 c2) :: acc)
        | [_] => some (count + 1, mkByte (hexByte c1 c2) :: acc)
      else none



/-- Models `impl::tokenizePatternString<S>`: size pass, then the token-filling pass
into a `std::array<token_t, N>` whose unwritten slots keep their
default-constructed (wildcard) value; `none` means constant evaluation fails
and no pattern is produced. -/
def tokenizePatternString (s : List Char) : Option (List Token) :=
  match sizeOfPatternString s with
  | none => none
  | some n =>
    match tokLoop n (s ++ [nulChar]) 0 [] with
    | none => none
    | some (count, acc) => some (acc.reverse ++ List.replicate (n - count) mkWild)

/-- Models `impl::unwrapToken`: the token a parsed token turns back into when the
tokenized string is rebuilt into a pattern through the mask primitives. -/
def unwrapToken (t : Token) : Token :=
  match t.type with
  | TokType.cursor => mkTok TokType.cursor
  | TokType.byte => mkByte t.byte
  | TokType.masked => mkMasked t.byte t.mask
  | TokType.wildcard => mkWild

/-- the raw token list of `impl::make_pattern` applied to a token array. -/
def compileTokens (ts : List Token) : List Token := ts.map unwrapToken

/-- per-token text of `pattern::to_string`. -/
def renderToken (t : Token) : List Char :=
  match t.type with
  | TokType.byte => hexPair t.byte
  | TokType.masked => hexPair t.byte ++ '&' :: hexPair t.mask
  | TokType.wildcard => ['?']
  | TokType.cursor => ['^']

/-- Models `pattern::to_string`: append each raw token's text plus a space, then the
final space becomes the terminator (so the result drops it). For an empty
pattern `count_string_length` underflows and constant evaluation fails:
`none`. -/
def patternToString (raw : List Token) : Option (List Char) :=
  match raw with
  | [] => none
  | _ => some ((raw.map (fun t => renderToken t ++ [' '])).flatten.dropLast)

/-! ### Basic arithmetic and loop lemmas -/

theorem usub64_of_le {a b : Nat} (hba : b ≤ a) (ha : a < 18446744073709551616) :
    usub64 a b = a - b := by
  unfold usub64
  omega

/-- if every candidate `i, i + step, ...` below the bound misses, the scan
returns -1 (with any fuel: exhaustion also returns -1). -/
theorem scanLoop_eq_neg_one (ubound : Nat) (hit : Nat → Bool) (ret : Nat → Int)
    (step : Nat) :
    ∀ fuel i, (∀ k, i + k * step < ubound → hit (i + k * step) = false) →
      scanLoop ubound hit ret step fuel i = -1 := by
  intro fuel
  induction fuel with
  | zero => intro i _; rfl
  | succ m ih =>
    intro i hmiss
    unfold scanLoop
    by_cases hi : i < ubound
    · have h0 : hit i = false := by
        have := hmiss 0 (by simpa using hi)
        simpa using this
      simp only [hi, if_true, h0, if_false, Bool.false_eq_true]
      exact ih (i + step) (fun k hk => by
        have heq : i + step + k * step = i + (k + 1) * step := by ring
        rw [heq] at hk ⊢
        exact hmiss (k + 1) hk)
    · simp [hi]

/-- if candidate `i + m * step` is the first hit (all earlier candidates
miss) and the fuel exceeds `m`, the scan returns `ret` of it. -/
theorem scanLoop_eq_ret (ubound : Nat) (hit : Nat → Bool) (ret : Nat → Int)
    (step : Nat) :
    ∀ fuel i m, m < fuel → i + m * step < ubound → hit (i + m * step) = true →
      (∀ k, k < m → hit (i + k * step) = false) →
      scanLoop ubound hit ret step fuel i = ret (i + m * step) := by
  intro fuel
  induction fuel with
  | zero => intro i m hm; omega
  | succ f ih =>
    intro i m hm hlt hhit hmiss
    unfold scanLoop
    have hi : i < ubound := by omega
    simp only [hi, if_true]
    cases m with
    | zero =>
      simp only [Nat.zero_mul, Nat.add_zero] at hhit
      simp [hhit]
    | succ m2 =>
      have h0 : hit i = false := by
        have := hmiss 0 (by omega)
        simpa using this
      simp only [h0, Bool.false_eq_true, if_false]
      have heq : i + step + m2 * step = i + (m2 + 1) * step := by ring
      have := ih (i + step) m2 (by omega)
        (by rw [heq]; exact hlt)
        (by rw [heq]; exact hhit)
        (fun k hk => by
          have heq2 : i + step + k * step = i + (k + 1) * step := by ring
          rw [heq2]
          exact hmiss (k + 1) (by omega))
      rw [this, heq]

/-! ### Cursor position lemmas (claim C5) -/

theorem cursorPosLoop_no_cursor :
    ∀ (raw : List Token) (i pos : Nat),
      (∀ t ∈ raw, t.type ≠ TokType.cursor) → cursorPosLoop raw i pos = pos := by
  intro raw
  induction raw with
  | nil => intro i pos _; rfl
  | cons t rest ih =>
    intro i pos h
    have ht : t.type ≠ TokType.cursor := h t (by simp)
    simp only [cursorPosLoop, ht, if_false]
    exact ih (i + 1) pos (fun u hu => h u (by simp [hu]))

theorem patternSize_cons (t : Token) (rest : List Token) :
    patternSize (t :: rest) =
      (if t.type = TokType.cursor then 0 else 1) + patternSize rest := by
  by_cases h : t.type = TokType.cursor <;>
    simp [patternSize, patternValue, List.filter, h] <;> omega

theorem cursorPosLoop_le :
    ∀ (raw : List Token) (i pos : Nat),
      (raw.filter (fun t => t.type = TokType.cursor)).length ≤ 1 → pos ≤ i →
      cursorPosLoop raw i pos ≤ i + patternSize raw := by
  intro raw
  induction raw with
  | nil =>
    intro i pos _ hpos
    simpa [cursorPosLoop, patternSize, patternValue] using hpos
  | cons t rest ih =>
    intro i pos hcount hpos
    by_cases ht : t.type = TokType.cursor
    · have hfc : (t :: rest).filter (fun u => u.type = TokType.cursor) =
          t :: rest.filter (fun u => u.type = TokType.cursor) :=
        List.filter_cons_of_pos (by simp [ht])
      rw [hfc] at hcount
      simp only [List.length_cons] at hcount
      have hrest : (rest.filter (fun u => u.type = TokType.cursor)).length = 0 := by
        omega
      have hnone : ∀ u ∈ rest, u.type ≠ TokType.cursor := by
        intro u hu
        have hemp := List.length_eq_zero.mp hrest
        intro hcon
        have : u ∈ rest.filter (fun t => t.type = TokType.cursor) :=
          List.mem_filter.mpr ⟨hu, by simp [hcon]⟩
        simp_all
      simp only [cursorPosLoop, ht, if_true]
      rw [cursorPosLoop_no_cursor rest (i + 1) i hnone]
      omega
    · simp only [cursorPosLoop, ht, if_false]
      have hcount2 : (rest.filter (fun t => t.type = TokType.cursor)).length ≤ 1 := by
        simp [List.filter_cons, ht] at hcount
        exact hcount
      have := ih (i + 1) pos hcount2 (by omega)
      rw [patternSize_cons, if_neg ht]
      omega

/-! ### Characterization of the groups fold (claims C4, C1, C3)

`runs i tys` computes the maximal literal runs of `tys` with indices shifted
by `i`; it is proven equal to the source fold `groupsLoop` below and exists
only to give that fold an induction-friendly shape. -/

/-- prepend the open run `(b, c)` to a run list whose head may start at `i`
(in which case the two runs merge). -/
def mergeRun (b c i : Nat) : List (Nat × Nat) → List (Nat × Nat)
  | [] => [(b, c)]
  | (b2, c2) :: gs2 =>
      if b2 = i then (b, c + c2) :: gs2 else (b, c) :: (b2, c2) :: gs2

/-- recursive form of the maximal-literal-run computation. -/
def runs : Nat → List TokType → List (Nat × Nat)
  | _, [] => []
  | i, ty :: rest =>
      if ty = TokType.byte then mergeRun i 1 (i + 1) (runs (i + 1) rest)
      else runs (i + 1) rest

theorem runs_ge :
    ∀ (tys : List TokType) (i : Nat) (p : Nat × Nat), p ∈ runs i tys → i ≤ p.1 := by
  intro tys
  induction tys with
  | nil => intro i p hp; simp [runs] at hp
  | cons ty rest ih =>
    intro i ⟨pb, pc⟩ hp
    by_cases hty : ty = TokType.byte
    · simp only [runs, hty, if_true] at hp
      rcases hrs : runs (i + 1) rest with _ | ⟨⟨b2, c2⟩, gs2⟩
      · rw [hrs] at hp
        simp only [mergeRun, List.mem_singleton, Prod.mk.injEq] at hp
        omega
      · rw [hrs] at hp
        by_cases hb2 : b2 = i + 1
        · simp only [mergeRun, hb2, if_true] at hp
          rcases List.mem_cons.mp hp with h | h
          · simp only [Prod.mk.injEq] at h
            omega
          · have := ih (i + 1) (pb, pc)
              (by rw [hrs]; exact List.mem_cons_of_mem _ h)
            simp only at this
            omega
        · simp only [mergeRun, hb2, if_false] at hp
          rcases List.mem_cons.mp hp with h | h
          · simp only [Prod.mk.injEq] at h
            omega
          · have := ih (i + 1) (pb, pc) (by rw [hrs]; exact h)
            simp only at this
            omega
    · simp only [runs, hty, if_false] at hp
      have := ih (i + 1) (pb, pc) hp
      simp only at this
      omega

theorem mergeRun_mergeRun (b c d i : Nat) (rs : List (Nat × Nat)) :
    mergeRun b c i (mergeRun i d (i + 1) rs) = mergeRun b (c + d) (i + 1) rs := by
  rcases rs with _ | ⟨⟨b2, c2⟩, gs2⟩
  · simp [mergeRun]
  · by_cases hb2 : b2 = i + 1
    · simp [mergeRun, hb2, Nat.add_assoc]
    · have hne : ¬ i = i + 1 := by omega
      simp [mergeRun, hb2, hne]

theorem mergeRun_of_gt (b c i : Nat) (rs : List (Nat × Nat))
    (h : ∀ p ∈ rs, i < p.1) : mergeRun b c i rs = (b, c) :: rs := by
  rcases rs with _ | ⟨⟨b2, c2⟩, gs2⟩
  · rfl
  · have : i < b2 := h (b2, c2) (by simp)
    simp [mergeRun]
    omega

theorem groupsLoop_eq_runs :
    ∀ (tys : List TokType) (i b c : Nat) (gs : List (Nat × Nat)),
      groupsLoop tys i false b c gs = gs ++ runs i tys ∧
      groupsLoop tys i true b c gs = gs ++ mergeRun b c i (runs i tys) := by
  intro tys
  induction tys with
  | nil =>
    intro i b c gs
    constructor
    · simp [groupsLoop, runs]
    · simp [groupsLoop, runs, mergeRun]
  | cons ty rest ih =>
    intro i b c gs
    by_cases hty : ty = TokType.byte
    · constructor
      · simp only [groupsLoop, hty, if_true, runs]
        exact (ih (i + 1) i 1 gs).2
      · simp only [groupsLoop, hty, if_true, runs]
        rw [(ih (i + 1) b (c + 1) gs).2, mergeRun_mergeRun]
    · have hge : ∀ p ∈ runs (i + 1) rest, i < p.1 := by
        intro p hp
        have := runs_ge rest (i + 1) p hp
        omega
      constructor
      · simp only [groupsLoop, hty, if_false, runs]
        exact (ih (i + 1) b c gs).1
      · simp only [groupsLoop, hty, if_false, runs]
        rw [(ih (i + 1) b c (gs ++ [(b, c)])).1, mergeRun_of_gt b c i _ hge,
          List.append_assoc]
        rfl

theorem groupsOf_eq_runs (tys : List TokType) : groupsOf tys = runs 0 tys := by
  have := (groupsLoop_eq_runs tys 0 0 0 []).1
  simpa [groupsOf] using this

theorem getD_cons_shift (ty d : TokType) (rest : List TokType) (i j : Nat)
    (h : i < j) :
    (ty :: rest).getD (j - i) d = rest.getD (j - (i + 1)) d := by
  have heq : j - i = (j - (i + 1)) + 1 := by omega
  rw [heq]
  rfl

/-- every run lies inside the list segment, has positive length, and covers
only literal positions. -/
theorem runs_bounds :
    ∀ (tys : List TokType) (i : Nat) (p : Nat × Nat), p ∈ runs i tys →
      i ≤ p.1 ∧ 1 ≤ p.2 ∧ p.1 + p.2 ≤ i + tys.length ∧
        ∀ j, p.1 ≤ j → j < p.1 + p.2 →
          tys.getD (j - i) TokType.wildcard = TokType.byte := by
  intro tys
  induction tys with
  | nil => intro i p hp; simp [runs] at hp
  | cons ty rest ih =>
    intro i ⟨pb, pc⟩ hp
    by_cases hty : ty = TokType.byte
    · simp only [runs, hty, if_true] at hp
      rcases hrs : runs (i + 1) rest with _ | ⟨⟨b2, c2⟩, gs2⟩
      · rw [hrs] at hp
        simp only [mergeRun, List.mem_singleton, Prod.mk.injEq] at hp
        obtain ⟨hb, hc⟩ := hp
        refine ⟨by omega, by omega, by simp; omega, ?_⟩
        intro j hj1 hj2
        have hji : j - i = 0 := by omega
        rw [hji]
        simp [hty]
      · rw [hrs] at hp
        by_cases hb2 : b2 = i + 1
        · have ihhead := ih (i + 1) (b2, c2) (by rw [hrs]; exact List.mem_cons_self _ _)
          simp only at ihhead
          obtain ⟨hh1, hh2, hh3, hh4⟩ := ihhead
          simp only [mergeRun, hb2, if_true] at hp
          rcases List.mem_cons.mp hp with h | h
          · simp only [Prod.mk.injEq] at h
            obtain ⟨hb, hc⟩ := h
            refine ⟨by omega, by omega, by simp; omega, ?_⟩
            intro j hj1 hj2
            by_cases hji : j = i
            · have hj0 : j - i = 0 := by omega
              rw [hj0]
              simp [hty]
            · rw [getD_cons_shift _ _ _ _ _ (by omega)]
              exact hh4 j (by omega) (by omega)
          · have ihtail := ih (i + 1) (pb, pc)
              (by rw [hrs]; exact List.mem_cons_of_mem _ h)
            simp only at ihtail
            obtain ⟨ht1, ht2, ht3, ht4⟩ := ihtail
            refine ⟨by omega, ht2, by simp; omega, ?_⟩
            intro j hj1 hj2
            rw [getD_cons_shift _ _ _ _ _ (by omega)]
            exact ht4 j hj1 hj2
        · simp only [mergeRun, hb2, if_false] at hp
          rcases List.mem_cons.mp hp with h | h
          · simp only [Prod.mk.injEq] at h
            obtain ⟨hb, hc⟩ := h
            refine ⟨by omega, by omega, by simp; omega, ?_⟩
            intro j hj1 hj2
            have hj0 : j - i = 0 := by omega
            rw [hj0]
            simp [hty]
          · have ihtail := ih (i + 1) (pb, pc) (by rw [hrs]; exact h)
            simp only at ihtail
            obtain ⟨ht1, ht2, ht3, ht4⟩ := ihtail
            refine ⟨by omega, ht2, by simp; omega, ?_⟩
            intro j hj1 hj2
            rw [getD_cons_shift _ _ _ _ _ (by omega)]
            exact ht4 j hj1 hj2
    · simp only [runs, hty, if_false] at hp
      have ihtail := ih (i + 1) (pb, pc) hp
      simp only at ihtail
      obtain ⟨ht1, ht2, ht3, ht4⟩ := ihtail
      refine ⟨by omega, ht2, by simp; omega, ?_⟩
      intro j hj1 hj2
      rw [getD_cons_shift _ _ _ _ _ (by omega)]
      exact ht4 j hj1 hj2

/-- every literal position is covered by some run. -/
theorem runs_cover :
    ∀ (tys : List TokType) (i j : Nat), j < tys.length →
      tys.getD j TokType.wildcard = TokType.byte →
      ∃ p, p ∈ runs i tys ∧ p.1 ≤ i + j ∧ i + j < p.1 + p.2 := by
  intro tys
  induction tys with
  | nil => intro i j hj _; simp at hj
  | cons ty rest ih =>
    intro i j hj hbyte
    by_cases hty : ty = TokType.byte
    · simp only [runs, hty, if_true]
      cases j with
      | zero =>
        rcases hrs : runs (i + 1) rest with _ | ⟨⟨b2, c2⟩, gs2⟩
        · exact ⟨(i, 1), by simp [mergeRun], by omega, by omega⟩
        · by_cases hb2 : b2 = i + 1
          · refine ⟨(i, 1 + c2), ?_, by omega, by omega⟩
            simp [mergeRun, hb2]
          · refine ⟨(i, 1), ?_, by omega, by omega⟩
            simp [mergeRun, hb2]
      | succ k =>
        have hk : k < rest.length := by simpa using hj
        have hbk : rest.getD k TokType.wildcard = TokType.byte := by
          simpa using hbyte
        obtain ⟨⟨pb, pc⟩, hpmem, hp1, hp2⟩ := ih (i + 1) k hk hbk
        rcases hrs : runs (i + 1) rest with _ | ⟨⟨b2, c2⟩, gs2⟩
        · rw [hrs] at hpmem; simp at hpmem
        · rw [hrs] at hpmem
          by_cases hb2 : b2 = i + 1
          · rcases List.mem_cons.mp hpmem with h | h
            · simp only [Prod.mk.injEq] at h
              refine ⟨(i, 1 + c2), ?_, by omega, by omega⟩
              simp [mergeRun, hb2]
            · refine ⟨(pb, pc), ?_, by omega, by omega⟩
              simp only [mergeRun, hb2, if_true]
              exact List.mem_cons_of_mem _ h
          · refine ⟨(pb, pc), ?_, by omega, by omega⟩
            simp only [mergeRun, hb2, if_false]
            exact List.mem_cons_of_mem _ hpmem
    · cases j with
      | zero => simp [hty] at hbyte
      | succ k =>
        have hk : k < rest.length := by simpa using hj
        have hbk : rest.getD k TokType.wildcard = TokType.byte := by
          simpa using hbyte
        obtain ⟨p, hpmem, hp1, hp2⟩ := ih (i + 1) k hk hbk
        refine ⟨p, ?_, by omega, by omega⟩
        simpa [runs, hty] using hpmem

/-- runs are listed in increasing order, disjoint, with a gap between
consecutive runs. -/
theorem runs_pairwise :
    ∀ (tys : List TokType) (i : Nat),
      List.Pairwise (fun p q => p.1 + p.2 < q.1) (runs i tys) := by
  intro tys
  induction tys with
  | nil => intro i; simp [runs]
  | cons ty rest ih =>
    intro i
    by_cases hty : ty = TokType.byte
    · simp only [runs, hty, if_true]
      rcases hrs : runs (i + 1) rest with _ | ⟨⟨b2, c2⟩, gs2⟩
      · simp [mergeRun]
      · have ihp := ih (i + 1)
        rw [hrs] at ihp
        obtain ⟨hhead, htail⟩ := List.pairwise_cons.mp ihp
        by_cases hb2 : b2 = i + 1
        · simp only [mergeRun, hb2, if_true]
          refine List.pairwise_cons.mpr ⟨?_, htail⟩
          intro q hq
          have := hhead q hq
          omega
        · simp only [mergeRun, hb2, if_false]
          have hge2 : i + 1 ≤ b2 :=
            runs_ge rest (i + 1) (b2, c2) (by rw [hrs]; exact List.mem_cons_self _ _)
          refine List.pairwise_cons.mpr ⟨?_, ihp⟩
          intro q hq
          rcases List.mem_cons.mp hq with h | h
          · rw [h]
            simp only
            omega
          · have := hhead q h
            omega
    · simpa [runs, hty] using ih (i + 1)

/-- maximality on the left: the position just before a run is not literal. -/
theorem runs_max_left :
    ∀ (tys : List TokType) (i : Nat) (p : Nat × Nat), p ∈ runs i tys →
      p.1 = i ∨ tys.getD (p.1 - 1 - i) TokType.wildcard ≠ TokType.byte := by
  intro tys
  induction tys with
  | nil => intro i p hp; simp [runs] at hp
  | cons ty rest ih =>
    intro i ⟨pb, pc⟩ hp
    by_cases hty : ty = TokType.byte
    · simp only [runs, hty, if_true] at hp
      rcases hrs : runs (i + 1) rest with _ | ⟨⟨b2, c2⟩, gs2⟩
      · rw [hrs] at hp
        simp only [mergeRun, List.mem_singleton, Prod.mk.injEq] at hp
        exact Or.inl hp.1
      · rw [hrs] at hp
        have hge2 : i + 1 ≤ b2 :=
          runs_ge rest (i + 1) (b2, c2) (by rw [hrs]; exact List.mem_cons_self _ _)
        have ihp := runs_pairwise rest (i + 1)
        rw [hrs] at ihp
        obtain ⟨hhead, _⟩ := List.pairwise_cons.mp ihp
        by_cases hb2 : b2 = i + 1
        · simp only [mergeRun, hb2, if_true] at hp
          rcases List.mem_cons.mp hp with h | h
          · simp only [Prod.mk.injEq] at h
            exact Or.inl h.1
          · have hgt : b2 + c2 < pb := hhead (pb, pc) h
            have ihr := ih (i + 1) (pb, pc)
              (by rw [hrs]; exact List.mem_cons_of_mem _ h)
            simp only at ihr
            rcases ihr with hl | hr
            · omega
            · refine Or.inr ?_
              rw [getD_cons_shift _ _ _ _ _ (by omega)]
              exact hr
        · simp only [mergeRun, hb2, if_false] at hp
          rcases List.mem_cons.mp hp with h | h
          · simp only [Prod.mk.injEq] at h
            exact Or.inl h.1
          · have hge : i + 1 ≤ pb := by
              have := runs_ge rest (i + 1) (pb, pc) (by rw [hrs]; exact h)
              simpa using this
            have hne : pb ≠ i + 1 := by
              rcases List.mem_cons.mp h with h2 | h2
              · simp only [Prod.mk.injEq] at h2
                omega
              · have := hhead (pb, pc) h2
                omega
            have ihr := ih (i + 1) (pb, pc) (by rw [hrs]; exact h)
            simp only at ihr
            rcases ihr with hl | hr
            · omega
            · refine Or.inr ?_
              rw [getD_cons_shift _ _ _ _ _ (by omega)]
              exact hr
    · simp only [runs, hty, if_false] at hp
      have hge : i + 1 ≤ pb := by
        have := runs_ge rest (i + 1) (pb, pc) hp
        simpa using this
      by_cases hpi : pb = i + 1
      · refine Or.inr ?_
        have h0 : pb - 1 - i = 0 := by omega
        rw [h0]
        simp [hty]
      · have ihr := ih (i + 1) (pb, pc) hp
        simp only at ihr
        rcases ihr with hl | hr
        · omega
        · refine Or.inr ?_
          rw [getD_cons_shift _ _ _ _ _ (by omega)]
          exact hr

/-- maximality on the right: the position just after a run is not literal. -/
theorem runs_max_right :
    ∀ (tys : List TokType) (i : Nat) (p : Nat × Nat), p ∈ runs i tys →
      p.1 + p.2 = i + tys.length ∨
        tys.getD (p.1 + p.2 - i) TokType.wildcard ≠ TokType.byte := by
  intro tys
  induction tys with
  | nil => intro i p hp; simp [runs] at hp
  | cons ty rest ih =>
    intro i ⟨pb, pc⟩ hp
    by_cases hty : ty = TokType.byte
    · simp only [runs, hty, if_true] at hp
      rcases hrs : runs (i + 1) rest with _ | ⟨⟨b2, c2⟩, gs2⟩
      · rw [hrs] at hp
        simp only [mergeRun, List.mem_singleton, Prod.mk.injEq] at hp
        obtain ⟨hb, hc⟩ := hp
        rcases rest with _ | ⟨ty2, rest2⟩
        · exact Or.inl (by simp; omega)
        · refine Or.inr ?_
          intro hcon
          have h1 : pb + pc - i = 1 := by omega
          rw [h1] at hcon
          have hb0 : (ty2 :: rest2).getD 0 TokType.wildcard = TokType.byte := by
            simpa using hcon
          obtain ⟨q, hqmem, _, _⟩ :=
            runs_cover (ty2 :: rest2) (i + 1) 0 (by simp) hb0
          rw [hrs] at hqmem
          simp at hqmem
      · rw [hrs] at hp
        have hge2 : i + 1 ≤ b2 :=
          runs_ge rest (i + 1) (b2, c2) (by rw [hrs]; exact List.mem_cons_self _ _)
        have ihp := runs_pairwise rest (i + 1)
        rw [hrs] at ihp
        obtain ⟨hhead, _⟩ := List.pairwise_cons.mp ihp
        by_cases hb2 : b2 = i + 1
        · simp only [mergeRun, hb2, if_true] at hp
          rcases List.mem_cons.mp hp with h | h
          · simp only [Prod.mk.injEq] at h
            obtain ⟨hb, hc⟩ := h
            have ihr := ih (i + 1) (b2, c2)
              (by rw [hrs]; exact List.mem_cons_self _ _)
            simp only at ihr
            rcases ihr with hl | hr
            · exact Or.inl (by simp; omega)
            · refine Or.inr ?_
              rw [getD_cons_shift _ _ _ _ _ (by omega)]
              have heq : pb + pc - (i + 1) = b2 + c2 - (i + 1) := by omega
              rw [heq]
              exact hr
          · have ihr := ih (i + 1) (pb, pc)
              (by rw [hrs]; exact List.mem_cons_of_mem _ h)
            simp only at ihr
            have hge : i + 1 ≤ pb := by
              have := runs_ge rest (i + 1) (pb, pc)
                (by rw [hrs]; exact List.mem_cons_of_mem _ h)
              simpa using this
            rcases ihr with hl | hr
            · exact Or.inl (by simp; omega)
            · refine Or.inr ?_
              rw [getD_cons_shift _ _ _ _ _ (by omega)]
              exact hr
        · simp only [mergeRun, hb2, if_false] at hp
          rcases List.mem_cons.mp hp with h | h
          · simp only [Prod.mk.injEq] at h
            obtain ⟨hb, hc⟩ := h
            rcases hrest : rest with _ | ⟨ty2, rest2⟩
            · rw [hrest] at hrs
              simp [runs] at hrs
            · refine Or.inr ?_
              intro hcon
              have h1 : pb + pc - i = 1 := by omega
              rw [h1] at hcon
              have hb0 : (ty2 :: rest2).getD 0 TokType.wildcard = TokType.byte := by
                simpa using hcon
              obtain ⟨q, hqmem, hq1, hq2⟩ :=
                runs_cover (ty2 :: rest2) (i + 1) 0 (by simp) hb0
              rw [← hrest] at hqmem
              rw [hrs] at hqmem
              have hqge : i + 1 ≤ q.1 := by
                have := runs_ge rest (i + 1) q (by rw [hrs, ← hrest] at *; exact hqmem)
                omega
              rcases List.mem_cons.mp hqmem with h2 | h2
              · have : q.1 = b2 := by rw [h2]
                omega
              · have := hhead q h2
                omega
          · have ihr := ih (i + 1) (pb, pc) (by rw [hrs]; exact h)
            simp only at ihr
            have hge : i + 1 ≤ pb := by
              have := runs_ge rest (i + 1) (pb, pc) (by rw [hrs]; exact h)
              simpa using this
            rcases ihr with hl | hr
            · exact Or.inl (by simp; omega)
            · refine Or.inr ?_
              rw [getD_cons_shift _ _ _ _ _ (by omega)]
              exact hr
    · simp only [runs, hty, if_false] at hp
      have ihr := ih (i + 1) (pb, pc) hp
      simp only at ihr
      have hge : i + 1 ≤ pb := by
        have := runs_ge rest (i + 1) (pb, pc) hp
        simpa using this
      rcases ihr with hl | hr
      · exact Or.inl (by simp; omega)
      · refine Or.inr ?_
        rw [getD_cons_shift _ _ _ _ _ (by omega)]
        exact hr

/-! ### The two-pass check of `find<Pattern>` equals the per-token check -/

theorem bool_eq_of_iff {a b : Bool} (h : a = true ↔ b = true) : a = b := by
  cases a <;> cases b <;> simp_all

theorem getD_map_of_lt {α β : Type} (f : α → β) (l : List α) (j : Nat)
    (hj : j < l.length) (d : β) (d2 : α) :
    (l.map f).getD j d = f (l.getD j d2) := by
  rw [List.getD_eq_getElem (l.map f) d (by simpa using hj),
    List.getD_eq_getElem l d2 hj]
  simp

theorem tokenMatchAt_iff (data : List Nat) (toks : List Token) (i : Nat) :
    tokenMatchAt data toks i = true ↔
      ∀ j, j < toks.length →
        ((toks.getD j mkWild).type = TokType.byte →
          data.getD (i + j) 0 = (toks.getD j mkWild).byte) ∧
        ((toks.getD j mkWild).type = TokType.masked →
          data.getD (i + j) 0 &&& (toks.getD j mkWild).mask =
            (toks.getD j mkWild).byte) := by
  unfold tokenMatchAt
  rw [List.all_eq_true]
  constructor
  · intro h j hj
    have hj2 := h j (List.mem_range.mpr hj)
    constructor
    · intro hb
      simp only [hb] at hj2
      simpa using hj2
    · intro hm
      simp only [hm] at hj2
      simpa using hj2
  · intro h j hjmem
    have hj := List.mem_range.mp hjmem
    rcases htype : (toks.getD j mkWild).type with _ | _ | _ | _
    · simp only [htype]
      simpa using (h j hj).1 htype
    · simp [htype]
    · simp [htype]
    · simp only [htype]
      simpa using (h j hj).2 htype

theorem matchMaskedAt_iff (data : List Nat) (types : List TokType)
    (bytes masks : List Nat) (sz i : Nat) :
    matchMaskedAt data types bytes masks sz i = true ↔
      ∀ j, j < sz → types.getD j TokType.wildcard = TokType.masked →
        data.getD (i + j) 0 &&& masks.getD j 0 = bytes.getD j 0 := by
  unfold matchMaskedAt
  rw [List.all_eq_true]
  constructor
  · intro h j hj hm
    have := h j (List.mem_range.mpr hj)
    simp only [hm, if_true] at this
    simpa using this
  · intro h j hjmem
    have hj := List.mem_range.mp hjmem
    by_cases hm : types.getD j TokType.wildcard = TokType.masked
    · simp only [hm, if_true]
      simpa using h j hj hm
    · rw [if_neg hm]

theorem matchGroupsAt_iff (data : List Nat) (bytes : List Nat)
    (groups : List (Nat × Nat)) (i : Nat) :
    matchGroupsAt data bytes groups i = true ↔
      ∀ g ∈ groups, ∀ j, j < g.2 →
        data.getD (i + j + g.1) 0 = bytes.getD (j + g.1) 0 := by
  unfold matchGroupsAt
  rw [List.all_eq_true]
  constructor
  · intro h g hg j hj
    have := h g hg
    rw [List.all_eq_true] at this
    simpa using this j (List.mem_range.mpr hj)
  · intro h g hg
    rw [List.all_eq_true]
    intro j hjmem
    simpa using h g hg j (List.mem_range.mp hjmem)

/-- the group pass plus the masked pass of `find<Pattern>` succeed exactly
when the per-token check of the token-array entry point succeeds on the
compiled (cursor-free) token list. -/
theorem foundAt_eq_tokenMatchAt (data : List Nat) (raw : List Token) (i : Nat) :
    foundAt data raw i = tokenMatchAt data (patternValue raw) i := by
  apply bool_eq_of_iff
  set toks := patternValue raw with htoks
  have htypes : patternTypes raw = toks.map Token.type := rfl
  have hbytes : patternBytes raw = toks.map Token.byte := rfl
  have hmasks : patternMasks raw = toks.map Token.mask := rfl
  have hsz : patternSize raw = toks.length := rfl
  have hgroups : patternGroups raw = runs 0 (patternTypes raw) := by
    rw [patternGroups, groupsOf_eq_runs]
  have hlentypes : (patternTypes raw).length = toks.length := by
    rw [htypes, List.length_map]
  have htypesD : ∀ j, j < toks.length →
      (patternTypes raw).getD j TokType.wildcard = (toks.getD j mkWild).type := by
    intro j hj
    rw [htypes]
    exact getD_map_of_lt Token.type toks j hj _ _
  have hbytesD : ∀ j, j < toks.length →
      (patternBytes raw).getD j 0 = (toks.getD j mkWild).byte := by
    intro j hj
    rw [hbytes]
    exact getD_map_of_lt Token.byte toks j hj _ _
  have hmasksD : ∀ j, j < toks.length →
      (patternMasks raw).getD j 0 = (toks.getD j mkWild).mask := by
    intro j hj
    rw [hmasks]
    exact getD_map_of_lt Token.mask toks j hj _ _
  unfold foundAt
  rw [Bool.and_eq_true, matchGroupsAt_iff, matchMaskedAt_iff, tokenMatchAt_iff]
  constructor
  · rintro ⟨hgrp, hmsk⟩ j hj
    constructor
    · intro hb
      have hbt : (patternTypes raw).getD j TokType.wildcard = TokType.byte := by
        rw [htypesD j hj, hb]
      obtain ⟨p, hpmem, hp1, hp2⟩ :=
        runs_cover (patternTypes raw) 0 j (by omega) hbt
      rw [← hgroups] at hpmem
      have := hgrp p hpmem (j - p.1) (by omega)
      have he1 : i + (j - p.1) + p.1 = i + j := by omega
      have he2 : j - p.1 + p.1 = j := by omega
      rw [he1, he2, hbytesD j hj] at this
      exact this
    · intro hm
      have hmt : (patternTypes raw).getD j TokType.wildcard = TokType.masked := by
        rw [htypesD j hj, hm]
      have := hmsk j (by omega) hmt
      rw [hbytesD j hj, hmasksD j hj] at this
      exact this
  · intro h
    constructor
    · intro g hgmem j hj
      rw [hgroups] at hgmem
      obtain ⟨_, _, hgle, hgin⟩ := runs_bounds (patternTypes raw) 0 g hgmem
      have hk : j + g.1 < toks.length := by omega
      have hkbyte : (toks.getD (j + g.1) mkWild).type = TokType.byte := by
        have := hgin (j + g.1) (by omega) (by omega)
        rw [Nat.sub_zero, htypesD (j + g.1) hk] at this
        exact this
      have := (h (j + g.1) hk).1 hkbyte
      have he1 : i + j + g.1 = i + (j + g.1) := by omega
      rw [he1, hbytesD (j + g.1) hk]
      exact this
    · intro j hj hm
      have hj2 : j < toks.length := by omega
      have hmt : (toks.getD j mkWild).type = TokType.masked := by
        rw [← htypesD j hj2]
        exact hm
      have := (h j hj2).2 hmt
      rw [hbytesD j hj2, hmasksD j hj2]
      exact this

/-- a cursor token replaced by a wildcard; other tokens unchanged
(statement helper for claim C10). -/
def decursor (t : Token) : Token :=
  if t.type = TokType.cursor then mkWild else t

theorem tokenMatchAt_decursor (data : List Nat) (toks : List Token) (i : Nat) :
    tokenMatchAt data (toks.map decursor) i = tokenMatchAt data toks i := by
  apply bool_eq_of_iff
  rw [tokenMatchAt_iff, tokenMatchAt_iff, List.length_map]
  have hget : ∀ j, j < toks.length →
      (toks.map decursor).getD j mkWild = decursor (toks.getD j mkWild) := by
    intro j hj
    exact getD_map_of_lt decursor toks j hj _ _
  constructor
  · intro h j hj
    have := h j hj
    rw [hget j hj] at this
    rcases htype : (toks.getD j mkWild).type with _ | _ | _ | _ <;>
      simp only [decursor, htype, mkWild] at this ⊢ <;> simp_all
  · intro h j hj
    have := h j hj
    rw [hget j hj]
    rcases htype : (toks.getD j mkWild).type with _ | _ | _ | _ <;>
      simp only [decursor, htype, mkWild] at this ⊢ <;> simp_all

/-! ### Claim theorems C1, C2, C3, C4, C5, C6, C8, C9, C10 -/

/-- C2 (code bug in the source): for the 5-wildcard pattern and a 3-byte
buffer the spec demands `NotFound` with no candidate examined, but
`find<Pattern>`'s loop bound `size - pat::size` underflows in `size_t`, the
loop runs, and the all-wildcard pattern "matches" at position 0, so `find`
returns 0 instead of `not_found`. -/
theorem claim_c2_oversized_pattern_returns_zero :
    patternSize (maskAny 5) = 5 ∧ [(0 : Nat), 0, 0].length = 3 ∧
      find [0, 0, 0] (maskAny 5) 1 = 0 ∧ (0 : Int) ≠ notFound := by
  decide

/-- C4: for every compiled pattern, `groups` partitions exactly the
literal-token index set of `tokens`: every index inside a group holds a
literal token; every literal index lies in some group and in exactly one
(groups are pairwise disjoint, listed in increasing order with a gap); and
each group is maximal (the tokens adjacent to it, when they exist, are not
literal). -/
theorem claim_c4_groups_partition (raw : List Token) :
    (∀ p ∈ patternGroups raw,
        1 ≤ p.2 ∧ p.1 + p.2 ≤ (patternTypes raw).length ∧
          ∀ j, p.1 ≤ j → j < p.1 + p.2 →
            (patternTypes raw).getD j TokType.wildcard = TokType.byte) ∧
      (∀ j, j < (patternTypes raw).length →
          (patternTypes raw).getD j TokType.wildcard = TokType.byte →
          ∃ p, p ∈ patternGroups raw ∧ p.1 ≤ j ∧ j < p.1 + p.2) ∧
      List.Pairwise (fun p q : Nat × Nat => p.1 + p.2 < q.1) (patternGroups raw) ∧
      (∀ p ∈ patternGroups raw, ∀ q ∈ patternGroups raw, ∀ j,
          p.1 ≤ j → j < p.1 + p.2 → q.1 ≤ j → j < q.1 + q.2 → p = q) ∧
      (∀ p ∈ patternGroups raw,
          (0 < p.1 →
            (patternTypes raw).getD (p.1 - 1) TokType.wildcard ≠ TokType.byte) ∧
          (p.1 + p.2 < (patternTypes raw).length →
            (patternTypes raw).getD (p.1 + p.2) TokType.wildcard ≠ TokType.byte)) := by
  have hge := groupsOf_eq_runs (patternTypes raw)
  have hpg : patternGroups raw = runs 0 (patternTypes raw) := by
    rw [patternGroups, hge]
  set tys := patternTypes raw with htys
  have hpw : List.Pairwise (fun p q : Nat × Nat => p.1 + p.2 < q.1)
      (patternGroups raw) := by
    rw [hpg]; exact runs_pairwise tys 0
  refine ⟨?_, ?_, hpw, ?_, ?_⟩
  · intro p hp
    rw [hpg] at hp
    obtain ⟨_, h2, h3, h4⟩ := runs_bounds tys 0 p hp
    refine ⟨h2, by omega, ?_⟩
    intro j hj1 hj2
    have := h4 j hj1 hj2
    simpa using this
  · intro j hj hb
    obtain ⟨p, hpmem, hp1, hp2⟩ := runs_cover tys 0 j hj hb
    exact ⟨p, by rw [hpg]; exact hpmem, by omega, by omega⟩
  · intro p hpmem q hqmem j hpj1 hpj2 hqj1 hqj2
    by_contra hne
    have hsym : Symmetric
        (fun p q : Nat × Nat => p.1 + p.2 < q.1 ∨ q.1 + q.2 < p.1) := by
      intro a b hab
      tauto
    have hpw2 : List.Pairwise
        (fun p q : Nat × Nat => p.1 + p.2 < q.1 ∨ q.1 + q.2 < p.1)
        (patternGroups raw) := hpw.imp (fun h => Or.inl h)
    have := hpw2.forall hsym hpmem hqmem hne
    omega
  · intro p hp
    rw [hpg] at hp
    constructor
    · intro hpos hcon
      rcases runs_max_left tys 0 p hp with hl | hr
      · omega
      · exact hr (by simpa using hcon)
    · intro hlt hcon
      rcases runs_max_right tys 0 p hp with hl | hr
      · omega
      · exact hr (by simpa using hcon)

theorem claim_c4_groups_partition_witness :
    ∃ p, p ∈ patternGroups [mkByte 72, mkByte 139, mkWild, mkWild, mkByte 195] ∧
      p.1 ≤ 4 ∧ 4 < p.1 + p.2 :=
  (claim_c4_groups_partition
      [mkByte 72, mkByte 139, mkWild, mkWild, mkByte 195]).2.1 4
    (by decide) (by decide)

/-- C1: for every buffer, every compiled pattern with
`1 ≤ length ≤ buffer.length` (the buffer within `size_t` range), and every
stride ≥ 1, `find` returns `i + anchor_offset` for the smallest candidate
position `i` (a multiple of the stride with `i ≤ size − length`) whose
window satisfies every literal token (`buffer[i+j] = value`) and every
masked token (`buffer[i+j] &&& mask = value`), wildcards unconstrained
(`tokenMatchAt` is exactly this per-token condition on the cursor-free
token list); when no candidate satisfies it, `find` returns `not_found`. -/
theorem claim_c1_find_first_match (data : List Nat) (raw : List Token)
    (step : Nat) (h1 : 1 ≤ patternSize raw) (h2 : patternSize raw ≤ data.length)
    (h3 : data.length < 18446744073709551616) (h4 : 1 ≤ step) :
    (∀ i : Nat, i % step = 0 → i ≤ data.length - patternSize raw →
        tokenMatchAt data (patternValue raw) i = true →
        (∀ j, j < i → j % step = 0 →
          tokenMatchAt data (patternValue raw) j = false) →
        find data raw step = (i : Int) + (cursorPosOf raw : Int)) ∧
      ((∀ i : Nat, i % step = 0 → i ≤ data.length - patternSize raw →
          tokenMatchAt data (patternValue raw) i = false) →
        find data raw step = notFound) := by
  have hbound : usub64 data.length (patternSize raw) =
      data.length - patternSize raw := usub64_of_le h2 h3
  have hfind : find data raw step =
      scanLoop (usub64 data.length (patternSize raw) + 1) (foundAt data raw)
        (fun i => (i : Int) + (cursorPosOf raw : Int)) step
        (usub64 data.length (patternSize raw) / step + 1) 0 := rfl
  rw [hbound] at hfind
  set bound := data.length - patternSize raw with hbdef
  constructor
  · intro i hmod hle hhit hmiss
    have hi : i / step * step = i :=
      Nat.div_mul_cancel (Nat.dvd_of_mod_eq_zero hmod)
    have key := scanLoop_eq_ret (bound + 1) (foundAt data raw)
      (fun k => (k : Int) + (cursorPosOf raw : Int)) step (bound / step + 1) 0
      (i / step)
      (by
        have : i / step ≤ bound / step := Nat.div_le_div_right hle
        omega)
      (by rw [Nat.zero_add, hi]; omega)
      (by rw [Nat.zero_add, hi, foundAt_eq_tokenMatchAt]; exact hhit)
      (by
        intro k hk
        rw [Nat.zero_add, foundAt_eq_tokenMatchAt]
        have hklt : k * step < i := by
          calc k * step < i / step * step :=
                (Nat.mul_lt_mul_right (by omega)).mpr hk
            _ = i := hi
        exact hmiss (k * step) hklt (Nat.mul_mod_left k step))
    rw [hfind, key, Nat.zero_add, hi]
  · intro hmiss
    rw [hfind]
    rw [scanLoop_eq_neg_one (bound + 1) (foundAt data raw)
      (fun k => (k : Int) + (cursorPosOf raw : Int)) step (bound / step + 1) 0
      (by
        intro k hk
        rw [Nat.zero_add] at hk ⊢
        rw [foundAt_eq_tokenMatchAt]
        exact hmiss (k * step) (Nat.mul_mod_left k step) (by omega))]
    rfl

theorem claim_c1_find_first_match_witness :
    1 ≤ patternSize [mkByte 65] ∧ patternSize [mkByte 65] ≤ [(72 : Nat), 65].length ∧
      [(72 : Nat), 65].length < 18446744073709551616 ∧ 1 ≤ 1 ∧
      (1 : Nat) % 1 = 0 ∧ (1 : Nat) ≤ [(72 : Nat), 65].length - patternSize [mkByte 65] ∧
      tokenMatchAt [72, 65] (patternValue [mkByte 65]) 1 = true ∧
      find [72, 65] [mkByte 65] 1 = (1 : Int) + (cursorPosOf [mkByte 65] : Int) :=
  ⟨by decide, by decide, by decide, by decide, by decide, by decide, by decide,
    (claim_c1_find_first_match [72, 65] [mkByte 65] 1 (by decide) (by decide)
        (by decide) (by decide)).1 1 (by decide) (by decide) (by decide)
      (by decide)⟩

/-- C10: in the token-array entry point, a cursor (anchor) token is not
zero-width: the window spans one position per token (cursors included), a
cursor position matches any byte (replacing cursors by wildcards never
changes the result), a masked token is checked as
`(buffer[i+j] &&& mask) = value` (see `tokenMatchAt`), and a successful
candidate returns the window start `i` itself, with no anchor adjustment;
the loop bound is the strict `i < size − pattern_size`. -/
theorem claim_c10_token_find_semantics (data : List Nat) (toks : List Token)
    (step : Nat) (h2 : toks.length ≤ data.length)
    (h3 : data.length < 18446744073709551616) (h4 : 1 ≤ step) :
    (∀ i : Nat, i % step = 0 → i < data.length - toks.length →
        tokenMatchAt data toks i = true →
        (∀ j, j < i → j % step = 0 → tokenMatchAt data toks j = false) →
        findTokens data toks step = (i : Int)) ∧
      ((∀ i : Nat, i % step = 0 → i < data.length - toks.length →
          tokenMatchAt data toks i = false) →
        findTokens data toks step = notFound) ∧
      findTokens data (toks.map decursor) step = findTokens data toks step := by
  have hbound : usub64 data.length toks.length = data.length - toks.length :=
    usub64_of_le h2 h3
  have hfind : findTokens data toks step =
      scanLoop (usub64 data.length toks.length) (tokenMatchAt data toks)
        (fun i => (i : Int)) step
        (usub64 data.length toks.length / step + 1) 0 := rfl
  rw [hbound] at hfind
  set bound := data.length - toks.length with hbdef
  refine ⟨?_, ?_, ?_⟩
  · intro i hmod hlt hhit hmiss
    have hi : i / step * step = i :=
      Nat.div_mul_cancel (Nat.dvd_of_mod_eq_zero hmod)
    have key := scanLoop_eq_ret bound (tokenMatchAt data toks)
      (fun k => (k : Int)) step (bound / step + 1) 0 (i / step)
      (by
        have : i / step * step ≤ bound := by omega
        have := (Nat.le_div_iff_mul_le (by omega)).mpr this
        omega)
      (by rw [Nat.zero_add, hi]; omega)
      (by rw [Nat.zero_add, hi]; exact hhit)
      (by
        intro k hk
        rw [Nat.zero_add]
        have hklt : k * step < i := by
          calc k * step < i / step * step :=
                (Nat.mul_lt_mul_right (by omega)).mpr hk
            _ = i := hi
        exact hmiss (k * step) hklt (Nat.mul_mod_left k step))
    rw [hfind, key, Nat.zero_add, hi]
  · intro hmiss
    rw [hfind]
    rw [scanLoop_eq_neg_one bound (tokenMatchAt data toks)
      (fun k => (k : Int)) step (bound / step + 1) 0
      (by
        intro k hk
        rw [Nat.zero_add] at hk ⊢
        exact hmiss (k * step) (Nat.mul_mod_left k step) hk)]
    rfl
  · have hlen : (toks.map decursor).length = toks.length := List.length_map _ _
    have hfun : tokenMatchAt data (toks.map decursor) = tokenMatchAt data toks := by
      funext i
      exact tokenMatchAt_decursor data toks i
    unfold findTokens
    rw [hlen, hfun]

theorem claim_c10_token_find_semantics_witness :
    [mkTok TokType.cursor, mkByte 65].length ≤ [(9 : Nat), 65, 7].length ∧
      (0 : Nat) % 1 = 0 ∧
      (0 : Nat) < [(9 : Nat), 65, 7].length - [mkTok TokType.cursor, mkByte 65].length ∧
      tokenMatchAt [9, 65, 7] [mkTok TokType.cursor, mkByte 65] 0 = true ∧
      findTokens [9, 65, 7] [mkTok TokType.cursor, mkByte 65] 1 = (0 : Int) :=
  ⟨by decide, by decide, by decide, by decide,
    (claim_c10_token_find_semantics [9, 65, 7] [mkTok TokType.cursor, mkByte 65] 1
        (by decide) (by decide) (by decide)).1 0 (by decide) (by decide)
      (by decide) (by decide)⟩

theorem patternValue_no_cursor (toks : List Token)
    (h : ∀ t ∈ toks, t.type ≠ TokType.cursor) : patternValue toks = toks := by
  unfold patternValue
  apply List.filter_eq_self.mpr
  intro t ht
  simpa using h t ht

theorem getD_dropLast (data : List Nat) (k : Nat) (hk : k < data.length - 1) :
    data.dropLast.getD k 0 = data.getD k 0 := by
  rw [List.getD_eq_getElem _ _ (by rw [List.length_dropLast]; omega),
    List.getD_eq_getElem _ _ (by omega)]
  exact List.getElem_dropLast _ _ _

theorem tokenMatchAt_dropLast (data : List Nat) (toks : List Token) (i : Nat)
    (h : i + toks.length < data.length) :
    tokenMatchAt data.dropLast toks i = tokenMatchAt data toks i := by
  apply bool_eq_of_iff
  rw [tokenMatchAt_iff, tokenMatchAt_iff]
  have hread : ∀ j, j < toks.length →
      data.dropLast.getD (i + j) 0 = data.getD (i + j) 0 := by
    intro j hj
    exact getD_dropLast data (i + j) (by omega)
  constructor
  · intro hh j hj
    obtain ⟨hb, hm⟩ := hh j hj
    rw [hread j hj] at hb hm
    exact ⟨hb, hm⟩
  · intro hh j hj
    obtain ⟨hb, hm⟩ := hh j hj
    rw [hread j hj]
    exact ⟨hb, hm⟩

/-- C3 counterexample: for the anchor-free token list `[41]` (one literal)
and a 1-byte buffer `[0x41]`, the pattern length equals the buffer length;
the grouped `find` (loop bound `i <= size - length`) examines candidate 0
and returns 0, but the token-array `find` (strict bound
`i < size - pattern_size`) examines no candidate and returns -1: the two
entry points disagree at the boundary candidate. -/
theorem claim_c3_counterexample :
    (∀ t ∈ [mkByte 65], t.type ≠ TokType.cursor) ∧
      1 ≤ [mkByte 65].length ∧ [mkByte 65].length ≤ [(65 : Nat)].length ∧
      findTokens [65] [mkByte 65] 1 = -1 ∧ find [65] [mkByte 65] 1 = 0 ∧
      findTokens [65] [mkByte 65] 1 ≠ find [65] [mkByte 65] 1 := by
  decide

/-- C3 amended: the token-array entry point scans candidates
`0 ≤ i < size − length` — one fewer than the grouped find, whose bound is
inclusive. For an anchor-free token list with `1 ≤ length < buffer.length`
and stride ≥ 1 it therefore computes exactly the grouped find over the
buffer with its final byte dropped; equality on the full buffer fails when
the first match sits at the last candidate (see the counterexample). -/
theorem claim_c3_token_find_vs_grouped (data : List Nat) (toks : List Token)
    (step : Nat) (hnoc : ∀ t ∈ toks, t.type ≠ TokType.cursor)
    (h1 : 1 ≤ toks.length) (h2 : toks.length < data.length)
    (h3 : data.length < 18446744073709551616) (h4 : 1 ≤ step) :
    findTokens data toks step = find data.dropLast toks step := by
  classical
  have hpv : patternValue toks = toks := patternValue_no_cursor toks hnoc
  have hps : patternSize toks = toks.length := by rw [patternSize, hpv]
  have hcp : cursorPosOf toks = 0 := cursorPosLoop_no_cursor toks 0 0 hnoc
  have hdllen : data.dropLast.length = data.length - 1 := List.length_dropLast data
  have hboundL : usub64 data.length toks.length = data.length - toks.length :=
    usub64_of_le (by omega) h3
  have hboundR : usub64 data.dropLast.length (patternSize toks) =
      data.length - 1 - toks.length := by
    rw [hdllen, hps]
    exact usub64_of_le (by omega) (by omega)
  have hfindL : findTokens data toks step =
      scanLoop (usub64 data.length toks.length) (tokenMatchAt data toks)
        (fun i => (i : Int)) step
        (usub64 data.length toks.length / step + 1) 0 := rfl
  have hfindR : find data.dropLast toks step =
      scanLoop (usub64 data.dropLast.length (patternSize toks) + 1)
        (foundAt data.dropLast toks)
        (fun i => (i : Int) + (cursorPosOf toks : Int)) step
        (usub64 data.dropLast.length (patternSize toks) / step + 1) 0 := rfl
  rw [hfindL, hfindR, hboundL, hboundR]
  have hhitR : ∀ i, i < data.length - toks.length →
      foundAt data.dropLast toks i = tokenMatchAt data toks i := by
    intro i hi
    rw [foundAt_eq_tokenMatchAt, hpv]
    exact tokenMatchAt_dropLast data toks i (by omega)
  by_cases hex : ∃ k, k * step < data.length - toks.length ∧
      tokenMatchAt data toks (k * step) = true
  · obtain ⟨m, ⟨hmlt, hmhit⟩, hmin⟩ := Nat.findX hex
    have hmiss : ∀ k, k < m → tokenMatchAt data toks (0 + k * step) = false := by
      intro k hk
      have hklt : k * step < data.length - toks.length := by
        have : k * step ≤ m * step := Nat.mul_le_mul_right step (Nat.le_of_lt hk)
        omega
      have := hmin k hk
      simp only [hklt, true_and] at this
      rw [Nat.zero_add]
      exact Bool.of_not_eq_true this
    rw [scanLoop_eq_ret (data.length - toks.length) (tokenMatchAt data toks)
        (fun i => (i : Int)) step ((data.length - toks.length) / step + 1) 0 m
        (by
          have : m ≤ (data.length - toks.length) / step :=
            (Nat.le_div_iff_mul_le (by omega)).mpr (by omega)
          omega)
        (by rw [Nat.zero_add]; exact hmlt)
        (by rw [Nat.zero_add]; exact hmhit) hmiss,
      scanLoop_eq_ret (data.length - 1 - toks.length + 1)
        (foundAt data.dropLast toks)
        (fun i => (i : Int) + (cursorPosOf toks : Int)) step
        ((data.length - 1 - toks.length) / step + 1) 0 m
        (by
          have : m ≤ (data.length - 1 - toks.length) / step :=
            (Nat.le_div_iff_mul_le (by omega)).mpr (by omega)
          omega)
        (by rw [Nat.zero_add]; omega)
        (by
          rw [Nat.zero_add, hhitR (m * step) hmlt]
          exact hmhit)
        (by
          intro k hk
          rw [Nat.zero_add, hhitR (k * step)
            (by
              have : k * step ≤ m * step := Nat.mul_le_mul_right step (Nat.le_of_lt hk)
              omega)]
          have := hmiss k hk
          rw [Nat.zero_add] at this
          exact this)]
    simp [hcp]
  · push_neg at hex
    have hmissL : ∀ k, 0 + k * step < data.length - toks.length →
        tokenMatchAt data toks (0 + k * step) = false := by
      intro k hk
      rw [Nat.zero_add] at hk ⊢
      exact Bool.of_not_eq_true (hex k hk)
    rw [scanLoop_eq_neg_one (data.length - toks.length) (tokenMatchAt data toks)
        (fun i => (i : Int)) step ((data.length - toks.length) / step + 1) 0 hmissL,
      scanLoop_eq_neg_one (data.length - 1 - toks.length + 1)
        (foundAt data.dropLast toks)
        (fun i => (i : Int) + (cursorPosOf toks : Int)) step
        ((data.length - 1 - toks.length) / step + 1) 0
        (by
          intro k hk
          rw [Nat.zero_add] at hk ⊢
          rw [hhitR (k * step) (by omega)]
          exact Bool.of_not_eq_true (hex k (by omega)))]

theorem claim_c3_token_find_vs_grouped_witness :
    (∀ t ∈ [mkByte 65], t.type ≠ TokType.cursor) ∧
      1 ≤ [mkByte 65].length ∧ [mkByte 65].length < [(65 : Nat), 0].length ∧
      findTokens [65, 0] [mkByte 65] 1 = find [(65 : Nat), 0].dropLast [mkByte 65] 1 :=
  ⟨by decide, by decide, by decide,
    claim_c3_token_find_vs_grouped [65, 0] [mkByte 65] 1 (by decide) (by decide)
      (by decide) (by decide) (by decide)⟩

/-- C9: for `stride ≥ 1` the scan of `find` terminates: any iteration budget
at least `bound / step + 1` (the one `find` uses) already reaches a return,
so giving the loop more fuel never changes the result — the fuel-exhaustion
branch of the embedding is unreachable. -/
theorem claim_c9_find_terminates (data : List Nat) (raw : List Token)
    (step : Nat) (hstep : 1 ≤ step) (fuel : Nat)
    (hfuel : usub64 data.length (patternSize raw) / step + 1 ≤ fuel) :
    scanLoop (usub64 data.length (patternSize raw) + 1) (foundAt data raw)
        (fun i => (i : Int) + (cursorPosOf raw : Int)) step fuel 0 =
      find data raw step := by
  classical
  set bound := usub64 data.length (patternSize raw) with hbound
  set hit := foundAt data raw with hhit
  set ret : Nat → Int := fun i => (i : Int) + (cursorPosOf raw : Int) with hret
  show scanLoop (bound + 1) hit ret step fuel 0 = find data raw step
  have hfind : find data raw step =
      scanLoop (bound + 1) hit ret step (bound / step + 1) 0 := rfl
  rw [hfind]
  by_cases hex : ∃ k, k * step < bound + 1 ∧ hit (k * step) = true
  · obtain ⟨m, ⟨hmlt, hmhit⟩, hmin⟩ := Nat.findX hex
    have hmbound : m ≤ bound / step := Nat.le_div_iff_mul_le hstep |>.mpr (by omega)
    have hmiss : ∀ k, k < m → hit (0 + k * step) = false := by
      intro k hk
      have hklt : k * step < bound + 1 := by
        have : k * step ≤ m * step := Nat.mul_le_mul_right step (Nat.le_of_lt hk)
        omega
      have := hmin k hk
      simp only [hklt, true_and] at this
      simpa using Bool.of_not_eq_true this
    rw [scanLoop_eq_ret (bound + 1) hit ret step fuel 0 m (by omega)
        (by simpa using hmlt) (by simpa using hmhit) hmiss,
      scanLoop_eq_ret (bound + 1) hit ret step (bound / step + 1) 0 m (by omega)
        (by simpa using hmlt) (by simpa using hmhit) hmiss]
  · push_neg at hex
    have hmiss : ∀ k, 0 + k * step < bound + 1 → hit (0 + k * step) = false := by
      intro k hk
      have := hex k (by simpa using hk)
      simpa using Bool.of_not_eq_true this
    rw [scanLoop_eq_neg_one (bound + 1) hit ret step fuel 0 hmiss,
      scanLoop_eq_neg_one (bound + 1) hit ret step (bound / step + 1) 0 hmiss]

theorem claim_c9_find_terminates_witness :
    1 ≤ 1 ∧ usub64 [(1 : Nat), 2].length (patternSize [mkByte 2]) / 1 + 1 ≤ 5 ∧
      scanLoop (usub64 [(1 : Nat), 2].length (patternSize [mkByte 2]) + 1)
          (foundAt [1, 2] [mkByte 2])
          (fun i => (i : Int) + (cursorPosOf [mkByte 2] : Int)) 1 5 0 =
        find [1, 2] [mkByte 2] 1 :=
  ⟨by decide, by decide,
    claim_c9_find_terminates [1, 2] [mkByte 2] 1 (by decide) 5 (by decide)⟩

/-- C5 counterexample: the pattern `"41 ^"` (one literal, then the anchor)
has `length = 1` but `anchor_offset = 1`, refuting `anchor_offset < length`:
the anchor offset can equal the length when the anchor is last. -/
theorem claim_c5_counterexample :
    0 < patternSize [mkByte 65, mkTok TokType.cursor] ∧
      ¬ cursorPosOf [mkByte 65, mkTok TokType.cursor] <
          patternSize [mkByte 65, mkTok TokType.cursor] := by
  decide

/-- C5 amended: for every pattern whose primitives contain at most one
anchor token, `0 ≤ anchor_offset ≤ length` (`≤`, not `<`: the anchor may sit
at the very end), and with no anchor token `anchor_offset = 0`. -/
theorem claim_c5_anchor_offset_bound (raw : List Token)
    (h : (raw.filter (fun t => t.type = TokType.cursor)).length ≤ 1) :
    cursorPosOf raw ≤ patternSize raw ∧
      ((raw.filter (fun t => t.type = TokType.cursor)).length = 0 →
        cursorPosOf raw = 0) := by
  constructor
  · simpa using cursorPosLoop_le raw 0 0 h (Nat.le_refl 0)
  · intro h0
    have hnone : ∀ u ∈ raw, u.type ≠ TokType.cursor := by
      intro u hu hcon
      have : u ∈ raw.filter (fun t => t.type = TokType.cursor) :=
        List.mem_filter.mpr ⟨hu, by simp [hcon]⟩
      have := List.length_eq_zero.mp h0
      simp_all
    simpa [cursorPosOf] using cursorPosLoop_no_cursor raw 0 0 hnone

theorem claim_c5_anchor_offset_bound_witness :
    ([mkByte 65, mkTok TokType.cursor].filter
        (fun t => t.type = TokType.cursor)).length ≤ 1 ∧
      cursorPosOf [mkByte 65, mkTok TokType.cursor] ≤
        patternSize [mkByte 65, mkTok TokType.cursor] :=
  ⟨by decide,
    (claim_c5_anchor_offset_bound [mkByte 65, mkTok TokType.cursor] (by decide)).1⟩

/-- C6 counterexample: the claim demands that every dangling-hex-nibble
input fail to compile, but the string `"4"` (a single nibble at end of
string) compiles successfully: the tokenizer pairs the nibble with the NUL
terminator (`from_hex` wraps it to 0xA9) and yields the bogus literal 0xE9,
with no failure at all. -/
theorem claim_c6_counterexample :
    tokenizePatternString ['4'] = some [mkByte 233] := by
  decide

/-- C6 amended: compiling the particular string `"4 ? "` does fail (the size
pass counts one token, the fill pass tries to write a second one out of
bounds, so constant evaluation aborts and no pattern is produced), and a
dangling `'&'` at end of string (`"AB&"`) also fails; but there is no
general guarantee for malformed inputs (see the counterexample) and no
distinguished MalformedPattern condition exists in the code. -/
theorem claim_c6_malformed_inputs :
    tokenizePatternString "4 ? ".toList = none ∧
      sizeOfPatternString "AB&".toList = none := by
  decide

/-- C8: `word`, `dword` and `qword` expand to exactly 2, 4 and 8 literal
tokens whose values are the little-endian byte decomposition of the integer
(`token k = (v >> 8 k) & 0xFF`); the embedding is pure arithmetic, with no
dependence on any host byte order. -/
theorem claim_c8_little_endian (n : Nat) :
    maskWord n = [mkByte ((n >>> (8 * 0)) % 256), mkByte ((n >>> (8 * 1)) % 256)] ∧
      maskDword n =
        [mkByte ((n >>> (8 * 0)) % 256), mkByte ((n >>> (8 * 1)) % 256),
          mkByte ((n >>> (8 * 2)) % 256), mkByte ((n >>> (8 * 3)) % 256)] ∧
      maskQword n =
        [mkByte ((n >>> (8 * 0)) % 256), mkByte ((n >>> (8 * 1)) % 256),
          mkByte ((n >>> (8 * 2)) % 256), mkByte ((n >>> (8 * 3)) % 256),
          mkByte ((n >>> (8 * 4)) % 256), mkByte ((n >>> (8 * 5)) % 256),
          mkByte ((n >>> (8 * 6)) % 256), mkByte ((n >>> (8 * 7)) % 256)] ∧
      (maskWord n).map Token.type = List.replicate 2 TokType.byte ∧
      (maskDword n).map Token.type = List.replicate 4 TokType.byte ∧
      (maskQword n).map Token.type = List.replicate 8 TokType.byte := by
  refine ⟨?_, ?_, ?_, ?_, ?_, ?_⟩ <;>
    norm_num [maskWord, maskDword, maskQword, mkByte, List.replicate]

/-! ### Round-trip machinery (claim C7) -/

/-- tokens as the `token_t` constructors produce them: byte values fit a
`uint8_t`, and a masked token kept its masked tag only because its mask is
neither 0 nor 0xFF (construction normalizes those to wildcard / byte). -/
def WFToken (t : Token) : Prop :=
  t.byte < 256 ∧ t.mask < 256 ∧
    (t.type = TokType.masked → t.mask ≠ 0 ∧ t.mask ≠ 255)

instance (t : Token) : Decidable (WFToken t) := by
  unfold WFToken
  infer_instance

/-- the token the tokenizer produces back for one rendered token. -/
def reparseToken (t : Token) : Token :=
  match t.type with
  | TokType.byte => mkByte t.byte
  | TokType.wildcard => mkWild
  | TokType.cursor => mkTok TokType.cursor
  | TokType.masked => mkMasked t.byte t.mask

/-- the rendered text of a token list from some token onward, including the
terminating NUL (each token is followed by a space, except the last, whose
space became the terminator). -/
def renderedFrom : List Token → List Char
  | [] => [nulChar]
  | [t] => renderToken t ++ [nulChar]
  | t :: t2 :: ts => renderToken t ++ ' ' :: renderedFrom (t2 :: ts)

theorem renderedFrom_ne_nil : ∀ ts : List Token, renderedFrom ts ≠ [] := by
  intro ts
  rcases ts with _ | ⟨t, _ | ⟨t2, rest⟩⟩
  · simp [renderedFrom]
  · simp [renderedFrom]
  · simp [renderedFrom]

theorem hexChar_facts :
    ∀ n, n < 16 → isHexChar (hexChar n) = true ∧ hexChar n ≠ ' ' ∧
      hexChar n ≠ '?' ∧ hexChar n ≠ '^' ∧ hexChar n ≠ '&' := by
  decide

set_option maxRecDepth 4000 in
theorem hexByte_hexPair : ∀ b, b < 256 →
    hexByte (hexChar (b >>> 4)) (hexChar (b &&& 15)) = b := by
  decide

theorem shiftr4_lt (b : Nat) (hb : b < 256) : b >>> 4 < 16 := by
  rw [Nat.shiftRight_eq_div_pow]
  omega

theorem land15_lt (b : Nat) : b &&& 15 < 16 :=
  Nat.lt_succ_of_le (Nat.and_le_right)

theorem dropLast_append_ne_nil {α : Type} (l1 l2 : List α) (h : l2 ≠ []) :
    (l1 ++ l2).dropLast = l1 ++ l2.dropLast := by
  rcases l2 with _ | ⟨c, l2t⟩
  · exact absurd rfl h
  · exact List.dropLast_append_cons

theorem renderToken_ne_nil (t : Token) : renderToken t ≠ [] := by
  unfold renderToken
  rcases t.type with _ | _ | _ | _ <;> simp [hexPair]

/-- the characters written by `to_string` (all chunks joined, final space
dropped), with the NUL re-appended, are exactly `renderedFrom`. -/
theorem joinChunks_renderedFrom :
    ∀ ts : List Token, ts ≠ [] →
      ((ts.map (fun t => renderToken t ++ [' '])).flatten).dropLast ++ [nulChar] =
        renderedFrom ts := by
  intro ts
  induction ts with
  | nil => intro h; exact absurd rfl h
  | cons t rest ih =>
    intro _
    rcases rest with _ | ⟨t2, rest2⟩
    · rw [List.map_cons, List.map_nil, List.flatten_cons, List.flatten_nil,
        List.append_nil, List.dropLast_concat]
      rfl
    · have hflat_ne :
          ((t2 :: rest2).map (fun t => renderToken t ++ [' '])).flatten ≠ [] := by
        rw [List.map_cons, List.flatten_cons]
        intro hcon
        exact absurd (List.append_eq_nil.mp (List.append_eq_nil.mp hcon).1).2
          (by simp)
      rw [List.map_cons, List.flatten_cons,
        dropLast_append_ne_nil _ _ hflat_ne, List.append_assoc, ih (by simp)]
      show (renderToken t ++ [' ']) ++ renderedFrom (t2 :: rest2) = _
      rw [List.append_assoc]
      rfl

/-- Models `pattern::to_string` of a nonempty token list succeeds, and its
characters followed by the NUL are `renderedFrom`. -/
theorem patternToString_eq_renderedFrom :
    ∀ ts : List Token, ts ≠ [] →
      ∃ s, patternToString ts = some s ∧ s ++ [nulChar] = renderedFrom ts := by
  intro ts hne
  rcases hts : ts with _ | ⟨t, rest⟩
  · exact absurd hts hne
  · refine ⟨((ts.map (fun t => renderToken t ++ [' '])).flatten.dropLast), ?_, ?_⟩
    · rw [← hts]
      unfold patternToString
      rw [hts]
    · rw [← hts]
      exact joinChunks_renderedFrom ts hne

theorem isHex_qm : isHexChar '?' = false := by decide

theorem isHex_caret : isHexChar '^' = false := by decide

theorem isHex_nul : isHexChar nulChar = false := by decide

theorem qm_ne_space : ('?' : Char) ≠ ' ' := by decide

theorem caret_ne_space : ('^' : Char) ≠ ' ' := by decide

theorem nul_ne_space : nulChar ≠ ' ' := by decide

theorem nul_ne_qm : nulChar ≠ '?' := by decide

theorem nul_ne_caret : nulChar ≠ '^' := by decide

theorem nul_ne_amp : nulChar ≠ '&' := by decide

theorem space_ne_amp : (' ' : Char) ≠ '&' := by decide

theorem caret_ne_qm : ('^' : Char) ≠ '?' := by decide

theorem sizeLoop_nil : sizeLoop [] = some 0 := rfl

theorem sizeLoop_single (c : Char) : sizeLoop [c] = some 0 := rfl

theorem tokLoop_nil (n count : Nat) (acc : List Token) :
    tokLoop n [] count acc = some (count, acc) := rfl

theorem tokLoop_single (n count : Nat) (acc : List Token) (c : Char) :
    tokLoop n [c] count acc = some (count, acc) := rfl

/-- a leading space is skipped by the size pass. -/
theorem sizeLoop_space (c : Char) (cs : List Char) :
    sizeLoop (' ' :: c :: cs) = sizeLoop (c :: cs) := by
  conv_lhs => rw [sizeLoop.eq_def]
  simp

/-- a leading space is skipped by the fill pass. -/
theorem tokLoop_space (n count : Nat) (acc : List Token) (c : Char)
    (cs : List Char) :
    tokLoop n (' ' :: c :: cs) count acc = tokLoop n (c :: cs) count acc := by
  conv_lhs => rw [tokLoop.eq_def]
  simp

/-- the size pass consumes the final rendered token and exits with count 1. -/
theorem sizeLoop_step_last (t : Token) (hwf : WFToken t) :
    sizeLoop (renderToken t ++ [nulChar]) = some 1 := by
  obtain ⟨hb256, hm256, _⟩ := hwf
  obtain ⟨f1h, f1s, f1q, f1c, f1a⟩ :=
    hexChar_facts (t.byte >>> 4) (shiftr4_lt t.byte hb256)
  obtain ⟨f2h, f2s, f2q, f2c, f2a⟩ :=
    hexChar_facts (t.byte &&& 15) (land15_lt t.byte)
  obtain ⟨f4h, f4s, f4q, f4c, f4a⟩ :=
    hexChar_facts (t.mask &&& 15) (land15_lt t.mask)
  rcases htype : t.type with _ | _ | _ | _
  · simp only [renderToken, htype, hexPair, List.cons_append, List.nil_append]
    conv_lhs => rw [sizeLoop.eq_def]
    simp [f1s, f1h, sizeLoop_nil, sizeLoop_single]
  · simp only [renderToken, htype, List.cons_append, List.nil_append]
    conv_lhs => rw [sizeLoop.eq_def]
    simp [qm_ne_space, isHex_qm, sizeLoop_nil, sizeLoop_single]
  · simp only [renderToken, htype, List.cons_append, List.nil_append]
    conv_lhs => rw [sizeLoop.eq_def]
    simp [caret_ne_space, isHex_caret, caret_ne_qm, sizeLoop_nil, sizeLoop_single]
  · simp only [renderToken, htype, hexPair, List.cons_append, List.nil_append,
      List.append_assoc]
    conv_lhs => rw [sizeLoop.eq_def]
    simp [f1s, f1h, f4q, f4c, sizeLoop_nil, sizeLoop_single]

/-- the size pass consumes one rendered token plus its separating space and
continues at the next token. -/
theorem sizeLoop_step_mid (t : Token) (hwf : WFToken t) (tail : List Char)
    (hne : tail ≠ []) :
    sizeLoop (renderToken t ++ ' ' :: tail) = (sizeLoop tail).map (· + 1) := by
  obtain ⟨hb256, hm256, _⟩ := hwf
  obtain ⟨f1h, f1s, f1q, f1c, f1a⟩ :=
    hexChar_facts (t.byte >>> 4) (shiftr4_lt t.byte hb256)
  obtain ⟨f2h, f2s, f2q, f2c, f2a⟩ :=
    hexChar_facts (t.byte &&& 15) (land15_lt t.byte)
  obtain ⟨f4h, f4s, f4q, f4c, f4a⟩ :=
    hexChar_facts (t.mask &&& 15) (land15_lt t.mask)
  rcases tail with _ | ⟨r, tail2⟩
  · exact absurd rfl hne
  rcases htype : t.type with _ | _ | _ | _
  · simp only [renderToken, htype, hexPair, List.cons_append, List.nil_append]
    conv_lhs => rw [sizeLoop.eq_def]
    simp [f1s, f1h, space_ne_amp, f2q, f2c]
  · simp only [renderToken, htype, List.cons_append, List.nil_append]
    conv_lhs => rw [sizeLoop.eq_def]
    simp [qm_ne_space, isHex_qm, space_ne_amp, sizeLoop_space]
  · simp only [renderToken, htype, List.cons_append, List.nil_append]
    conv_lhs => rw [sizeLoop.eq_def]
    simp [caret_ne_space, isHex_caret, caret_ne_qm, space_ne_amp, sizeLoop_space]
  · simp only [renderToken, htype, hexPair, List.cons_append, List.nil_append,
      List.append_assoc]
    conv_lhs => rw [sizeLoop.eq_def]
    simp [f1s, f1h, f4q, f4c]

/-- the size pass counts exactly one per rendered token. -/
theorem sizeLoop_render :
    ∀ ts : List Token, (∀ t ∈ ts, WFToken t) →
      sizeLoop (renderedFrom ts) = some ts.length := by
  intro ts
  induction ts with
  | nil => intro _; rfl
  | cons t rest ih =>
    intro hwf
    rcases rest with _ | ⟨t2, rest2⟩
    · exact sizeLoop_step_last t (hwf t (by simp))
    · show sizeLoop (renderToken t ++ ' ' :: renderedFrom (t2 :: rest2)) = _
      rw [sizeLoop_step_mid t (hwf t (by simp)) _ (renderedFrom_ne_nil _),
        ih (fun u hu => hwf u (by simp [hu]))]
      rfl

/-- the fill pass consumes the final rendered token, writing its reparsed
form. -/
theorem tokLoop_step_last (t : Token) (hwf : WFToken t) (n count : Nat)
    (acc : List Token) (hcount : count < n) :
    tokLoop n (renderToken t ++ [nulChar]) count acc =
      some (count + 1, reparseToken t :: acc) := by
  obtain ⟨hb256, hm256, _⟩ := hwf
  obtain ⟨f1h, f1s, f1q, f1c, f1a⟩ :=
    hexChar_facts (t.byte >>> 4) (shiftr4_lt t.byte hb256)
  obtain ⟨f2h, f2s, f2q, f2c, f2a⟩ :=
    hexChar_facts (t.byte &&& 15) (land15_lt t.byte)
  obtain ⟨f4h, f4s, f4q, f4c, f4a⟩ :=
    hexChar_facts (t.mask &&& 15) (land15_lt t.mask)
  have hbb := hexByte_hexPair t.byte hb256
  have hbm := hexByte_hexPair t.mask hm256
  rcases htype : t.type with _ | _ | _ | _
  · simp only [renderToken, htype, hexPair, List.cons_append, List.nil_append]
    conv_lhs => rw [tokLoop.eq_def]
    simp [f1s, f1q, f1c, hcount, hbb, reparseToken, htype, tokLoop_nil,
      tokLoop_single]
  · simp only [renderToken, htype, List.cons_append, List.nil_append]
    conv_lhs => rw [tokLoop.eq_def]
    simp [qm_ne_space, hcount, reparseToken, htype, tokLoop_nil, tokLoop_single]
  · simp only [renderToken, htype, List.cons_append, List.nil_append]
    conv_lhs => rw [tokLoop.eq_def]
    simp [caret_ne_space, caret_ne_qm, hcount, reparseToken, htype, tokLoop_nil,
      tokLoop_single]
  · simp only [renderToken, htype, hexPair, List.cons_append, List.nil_append,
      List.append_assoc]
    conv_lhs => rw [tokLoop.eq_def]
    simp [f1s, f1q, f1c, hcount, hbb, hbm, reparseToken, htype, tokLoop_nil,
      tokLoop_single]

/-- the fill pass consumes one rendered token plus its separating space,
writes its reparsed form, and continues at the next token. -/
theorem tokLoop_step_mid (t : Token) (hwf : WFToken t) (tail : List Char)
    (hne : tail ≠ []) (n count : Nat) (acc : List Token) (hcount : count < n) :
    tokLoop n (renderToken t ++ ' ' :: tail) count acc =
      tokLoop n tail (count + 1) (reparseToken t :: acc) := by
  obtain ⟨hb256, hm256, _⟩ := hwf
  obtain ⟨f1h, f1s, f1q, f1c, f1a⟩ :=
    hexChar_facts (t.byte >>> 4) (shiftr4_lt t.byte hb256)
  obtain ⟨f2h, f2s, f2q, f2c, f2a⟩ :=
    hexChar_facts (t.byte &&& 15) (land15_lt t.byte)
  obtain ⟨f4h, f4s, f4q, f4c, f4a⟩ :=
    hexChar_facts (t.mask &&& 15) (land15_lt t.mask)
  have hbb := hexByte_hexPair t.byte hb256
  have hbm := hexByte_hexPair t.mask hm256
  rcases tail with _ | ⟨r, tail2⟩
  · exact absurd rfl hne
  rcases htype : t.type with _ | _ | _ | _
  · simp only [renderToken, htype, hexPair, List.cons_append, List.nil_append]
    conv_lhs => rw [tokLoop.eq_def]
    simp [f1s, f1q, f1c, hcount, hbb, space_ne_amp, reparseToken, htype,
      tokLoop_space]
  · simp only [renderToken, htype, List.cons_append, List.nil_append]
    conv_lhs => rw [tokLoop.eq_def]
    simp [qm_ne_space, hcount, reparseToken, htype, tokLoop_space]
  · simp only [renderToken, htype, List.cons_append, List.nil_append]
    conv_lhs => rw [tokLoop.eq_def]
    simp [caret_ne_space, caret_ne_qm, hcount, reparseToken, htype, tokLoop_space]
  · simp only [renderToken, htype, hexPair, List.cons_append, List.nil_append,
      List.append_assoc]
    conv_lhs => rw [tokLoop.eq_def]
    simp [f1s, f1q, f1c, hcount, hbb, hbm, reparseToken, htype, tokLoop_space]

/-- the fill pass writes exactly the reparsed form of each rendered token. -/
theorem tokLoop_render :
    ∀ (ts : List Token) (n count : Nat) (acc : List Token),
      (∀ t ∈ ts, WFToken t) → count + ts.length ≤ n →
      tokLoop n (renderedFrom ts) count acc =
        some (count + ts.length, (ts.map reparseToken).reverse ++ acc) := by
  intro ts
  induction ts with
  | nil =>
    intro n count acc _ _
    simp [renderedFrom, tokLoop_single]
  | cons t rest ih =>
    intro n count acc hwf hcount
    rcases rest with _ | ⟨t2, rest2⟩
    · have := tokLoop_step_last t (hwf t (by simp)) n count acc (by simp at hcount; omega)
      simp only [renderedFrom] at *
      rw [this]
      simp
    · show tokLoop n (renderToken t ++ ' ' :: renderedFrom (t2 :: rest2)) count acc = _
      rw [tokLoop_step_mid t (hwf t (by simp)) _ (renderedFrom_ne_nil _) n count acc
        (by simp at hcount; omega)]
      rw [ih n (count + 1) (reparseToken t :: acc)
        (fun u hu => hwf u (by simp [hu])) (by simp at hcount ⊢; omega)]
      have hlen : count + 1 + (t2 :: rest2).length = count + (t :: t2 :: rest2).length := by
        simp
        omega
      rw [hlen]
      simp

/-- tokenizing the rendered string of a well-formed nonempty token list
succeeds and yields the reparsed tokens. -/
theorem tokenize_render (ts : List Token) (hne : ts ≠ [])
    (hwf : ∀ t ∈ ts, WFToken t) (s : List Char)
    (hs : s ++ [nulChar] = renderedFrom ts) :
    tokenizePatternString s = some (ts.map reparseToken) := by
  have h2 := tokLoop_render ts ts.length 0 [] hwf (by omega)
  unfold tokenizePatternString sizeOfPatternString
  rw [hs, sizeLoop_render ts hwf]
  show (match tokLoop ts.length (renderedFrom ts) 0 [] with
    | none => none
    | some (count, acc) =>
        some (acc.reverse ++ List.replicate (ts.length - count) mkWild)) =
    some (ts.map reparseToken)
  rw [h2]
  simp

/-- rebuilding a reparsed token through the mask primitives and rendering it
gives back the original token's text. -/
theorem renderToken_unwrap_reparse (t : Token) (hwf : WFToken t) :
    renderToken (unwrapToken (reparseToken t)) = renderToken t := by
  obtain ⟨hb256, hm256, hmasked⟩ := hwf
  rcases htype : t.type with _ | _ | _ | _
  · simp [reparseToken, htype, unwrapToken, mkByte, renderToken]
  · simp [reparseToken, htype, unwrapToken, mkWild, renderToken]
  · simp [reparseToken, htype, unwrapToken, mkTok, renderToken]
  · obtain ⟨hm0, hm255⟩ := hmasked htype
    simp [reparseToken, htype, unwrapToken, mkMasked, hm0, hm255, renderToken]

/-- two token lists with identical per-token rendered chunks render to the
same string. -/
theorem patternToString_eq_of_chunks (xs ys : List Token) (hxs : xs ≠ [])
    (hys : ys ≠ [])
    (h : xs.map (fun t => renderToken t ++ [' ']) =
      ys.map (fun t => renderToken t ++ [' '])) :
    patternToString xs = patternToString ys := by
  rcases xs with _ | ⟨x, xr⟩
  · exact absurd rfl hxs
  rcases ys with _ | ⟨y, yr⟩
  · exact absurd rfl hys
  unfold patternToString
  rw [h]

/-- C7: for every pattern expressible in the string syntax (a nonempty
sequence of constructor-normalized tokens), rendering it, compiling the
rendered string, and rendering the compiled result reproduces the first
rendering: `render (compile (render p)) = render p`. Masked tokens with
mask 0xFF or 0x00 cannot occur in such a pattern — construction already
normalized them to plain literals / wildcards, which render as `XX` / `?`. -/
theorem claim_c7_round_trip (ts : List Token) (hne : ts ≠ [])
    (hwf : ∀ t ∈ ts, WFToken t) :
    ∃ s ts2, patternToString ts = some s ∧ tokenizePatternString s = some ts2 ∧
      patternToString (compileTokens ts2) = some s := by
  obtain ⟨s, hrender, hs⟩ := patternToString_eq_renderedFrom ts hne
  refine ⟨s, ts.map reparseToken, hrender, tokenize_render ts hne hwf s hs, ?_⟩
  have hmap : compileTokens (ts.map reparseToken) =
      ts.map (fun t => unwrapToken (reparseToken t)) := by
    rw [compileTokens, List.map_map]
    rfl
  rw [hmap]
  have hchunks :
      (ts.map (fun t => unwrapToken (reparseToken t))).map
          (fun t => renderToken t ++ [' ']) =
        ts.map (fun t => renderToken t ++ [' ']) := by
    rw [List.map_map]
    apply List.map_congr_left
    intro t ht
    show renderToken (unwrapToken (reparseToken t)) ++ [' '] = _
    rw [renderToken_unwrap_reparse t (hwf t ht)]
  have hne2 : ts.map (fun t => unwrapToken (reparseToken t)) ≠ [] := by
    rcases hts : ts with _ | ⟨t, rest⟩
    · exact absurd hts hne
    · simp
  rw [patternToString_eq_of_chunks _ ts hne2 hne hchunks]
  exact hrender

theorem claim_c7_round_trip_witness :
    ([mkByte 72, mkWild, mkTok TokType.cursor, mkMasked 16 15] ≠ []) ∧
      (∀ t ∈ [mkByte 72, mkWild, mkTok TokType.cursor, mkMasked 16 15], WFToken t) ∧
      (∃ s ts2,
        patternToString [mkByte 72, mkWild, mkTok TokType.cursor, mkMasked 16 15] =
          some s ∧
        tokenizePatternString s = some ts2 ∧
        patternToString (compileTokens ts2) = some s) :=
  ⟨by decide, by decide,
    claim_c7_round_trip [mkByte 72, mkWild, mkTok TokType.cursor, mkMasked 16 15]
      (by decide) (by decide)⟩

end Sinaps
